import Mathlib

/-!
Verification of the digi-downloader content pipeline.

This file gives a shallow embedding, in Lean, of the pure text-processing
core of the downloader (the dash-array fix, the markup sanitizer, the
SVG-snippet extractor, the reference resolver and the SVG-folder-to-PDF
assembler) and proves properties of the embedded code.

Modelling conventions:
- Strings are processed as lists of characters; top-level entry points keep
  the names of the corresponding source functions and operate on String.
- JavaScript regular-expression passes (all with deterministic matching
  behaviour on the patterns used by the source) are implemented as explicit
  left-to-right scanners.  Scanners that jump past a match are written with
  an explicit fuel argument (the fuel is the length of the input) so that all
  definitions are structurally recursive and kernel-evaluable; the fuel is
  always sufficient because every step consumes at least one character.
- Case-insensitive regex matching (the /i flag without /u) canonicalises
  only ASCII letters, which is exactly what the embedded ciEq does.
- Network fetches, URL resolution and base64 encoding are platform effects;
  they enter the model as an explicit environment of oracle functions.
-/

/-- Case-insensitive character comparison: ASCII folding, exactly the
canonicalisation JavaScript applies for the /i regex flag without /u. -/
def ciEq (a b : Char) : Bool := a.toLower = b.toLower

/-- Tests whether pat occurs at the very start of s (case-sensitive). -/
def startsWithL : List Char → List Char → Bool
  | [], _ => true
  | _ :: _, [] => false
  | p :: ps, c :: cs => p = c && startsWithL ps cs

/-- Tests whether pat occurs at the very start of s (ASCII case-insensitive). -/
def startsWithCI : List Char → List Char → Bool
  | [], _ => true
  | _ :: _, [] => false
  | p :: ps, c :: cs => ciEq p c && startsWithCI ps cs

/-- Leftmost occurrence of a (nonempty) pattern in s: returns the text
before the occurrence and the text after it. -/
def splitFirst (pat : List Char) : List Char → Option (List Char × List Char)
  | [] => none
  | c :: cs =>
    if startsWithL pat (c :: cs) then some ([], (c :: cs).drop pat.length)
    else
      match splitFirst pat cs with
      | some (pre, post) => some (c :: pre, post)
      | none => none

/-- Whitespace characters of the JavaScript regex class backslash-s and of
string trimming in the Number conversion. -/
def jsWhitespace (c : Char) : Bool :=
  c = ' ' || c = '\t' || c = '\n' || c = '\r' || c = '\x0b' || c = '\x0c' ||
  c = ' ' || c = ' ' || (' ' ≤ c && c ≤ ' ') ||
  c = ' ' || c = ' ' || c = ' ' || c = ' ' ||
  c = '　' || c = '﻿'

/- ───────────────────── fixDashArrays (source lines 93-109) ───────────── -/

/-- Separator class of the list-splitting regex in fixDashArrays:
one or more commas or spaces. -/
def dashSep (c : Char) : Bool := c = ',' || c = ' '

/-- Fuel-driven worker for jsSplitSep. -/
def jsSplitSepGo : Nat → List Char → List (List Char)
  | 0, s => [s]
  | fuel + 1, s =>
    match s.dropWhile (fun c => !dashSep c) with
    | [] => [s.takeWhile (fun c => !dashSep c)]
    | _ :: r => s.takeWhile (fun c => !dashSep c) :: jsSplitSepGo fuel (r.dropWhile dashSep)

/-- JavaScript split on the regex class of commas and spaces (one or more),
as used by fixList: maximal separator runs split the string; leading or
trailing separators produce empty entries, and the empty string yields the
single empty entry. -/
def jsSplitSep (s : List Char) : List (List Char) := jsSplitSepGo s.length s

/-- Strips JavaScript whitespace from both ends (the implicit trimming of
the Number conversion). -/
def trimJs (s : List Char) : List Char :=
  ((s.dropWhile jsWhitespace).reverse.dropWhile jsWhitespace).reverse

/-- All characters are the digit zero. -/
def allZeroDigits (l : List Char) : Bool := l.all (fun c => c = '0')

/-- Hexadecimal digit. -/
def hexDigitB (c : Char) : Bool :=
  c.isDigit || ('a' ≤ c && c ≤ 'f') || ('A' ≤ c && c ≤ 'F')

/-- Octal digit. -/
def octDigitB (c : Char) : Bool := '0' ≤ c && c ≤ '7'

/-- Binary digit. -/
def binDigitB (c : Char) : Bool := c = '0' || c = '1'

/-- Parses a JavaScript decimal numeric literal (digits, optional fraction,
optional exponent; at least one mantissa digit; the whole string must be
consumed).  Returns none when the string is not such a literal (Number
yields NaN), some true when its value is zero (all mantissa digits are the
digit zero) and some false otherwise. -/
def decimalZeroParse (t : List Char) : Option Bool :=
  let ip := t.takeWhile Char.isDigit
  let r1 := t.dropWhile Char.isDigit
  let fp := match r1 with
    | '.' :: u => u.takeWhile Char.isDigit
    | _ => []
  let r2 := match r1 with
    | '.' :: u => u.dropWhile Char.isDigit
    | _ => r1
  if ip.isEmpty && fp.isEmpty then none
  else
    let expOk : Bool := match r2 with
      | [] => true
      | c :: u =>
        if c = 'e' || c = 'E' then
          let u' := match u with
            | s :: v => if s = '+' || s = '-' then v else s :: v
            | [] => []
          !u'.isEmpty && u'.all Char.isDigit
        else false
    if expOk then some (allZeroDigits (ip ++ fp)) else none

/-- True exactly when the JavaScript expression Number(x) === 0 is true for
the string x: after trimming, the empty string converts to zero; otherwise
the string must be a valid numeric literal (decimal with optional sign, the
Infinity literal, or an unsigned binary, octal or hexadecimal literal)
whose value is zero.  Invalid strings convert to NaN, which is not zero. -/
def jsNumberIsZero (s : List Char) : Bool :=
  let t := trimJs s
  if t.isEmpty then true
  else
    let signed : Bool := match t with
      | c :: _ => c = '+' || c = '-'
      | [] => false
    let t1 := if signed then t.tail else t
    if t1 = "Infinity".data then false
    else if !signed && (startsWithL "0x".data t || startsWithL "0X".data t) then
      let d := t.drop 2
      !d.isEmpty && d.all hexDigitB && allZeroDigits d
    else if !signed && (startsWithL "0b".data t || startsWithL "0B".data t) then
      let d := t.drop 2
      !d.isEmpty && d.all binDigitB && allZeroDigits d
    else if !signed && (startsWithL "0o".data t || startsWithL "0O".data t) then
      let d := t.drop 2
      !d.isEmpty && d.all octDigitB && allZeroDigits d
    else
      match decimalZeroParse t1 with
      | some z => z
      | none => false

/-- Replacement entry written for zero-length dashes. -/
def epsilonEntry : List Char := "0.001".data

/-- Per-entry transform of fixList: a zero entry becomes the epsilon,
every other entry is kept verbatim. -/
def fixEntry (e : List Char) : List Char :=
  if jsNumberIsZero e then epsilonEntry else e

/-- Join with single spaces (the join of fixList). -/
def joinSpace : List (List Char) → List Char
  | [] => []
  | [e] => e
  | e :: es => e ++ ' ' :: joinSpace es

/-- The fixList helper of fixDashArrays: split the dash list on comma/space
runs, replace zero entries by the epsilon, join with single spaces. -/
def fixList (l : List Char) : List Char :=
  joinSpace ((jsSplitSep l).map fixEntry)

/-- Literal text of the attribute-form dash-array pattern (matched
case-insensitively). -/
def dashAttrPat : List Char := "stroke-dasharray=\"".data

/-- Fuel-driven worker of the first replacement pass of fixDashArrays
(the attribute form).  At each position: on a case-insensitive match of
the attribute pattern, the quoted value (which cannot contain a double
quote) is captured up to the closing quote and rewritten through fixList;
otherwise the scan advances one character.  A position without a closing
quote does not match. -/
def fixDashAttrGo : Nat → List Char → List Char
  | 0, s => s
  | _ + 1, [] => []
  | fuel + 1, c :: cs =>
    if startsWithCI dashAttrPat (c :: cs) then
      let rest := (c :: cs).drop dashAttrPat.length
      match rest.dropWhile (fun d => !(d = '"')) with
      | '"' :: after =>
        dashAttrPat ++ fixList (rest.takeWhile (fun d => !(d = '"'))) ++
          '"' :: fixDashAttrGo fuel after
      | _ => c :: fixDashAttrGo fuel cs
    else c :: fixDashAttrGo fuel cs

/-- First replacement pass of fixDashArrays. -/
def fixDashAttr (s : List Char) : List Char := fixDashAttrGo s.length s

/-- Literal text of the style-form dash-array pattern (matched
case-insensitively). -/
def dashStylePat : List Char := "stroke-dasharray".data

/-- Terminator class of the style-form capture: semicolon and both quote
characters. -/
def styleStop (c : Char) : Bool := c = ';' || c = '"' || c.toNat = 39

/-- Fuel-driven worker of the second replacement pass of fixDashArrays
(the style-property form).  At each position: a case-insensitive match of
the property name, optional whitespace, a colon, optional whitespace, then
a nonempty greedy capture up to a terminator; the match is rewritten as the
property name, a colon and the fixed list. -/
def fixDashStyleGo : Nat → List Char → List Char
  | 0, s => s
  | _ + 1, [] => []
  | fuel + 1, c :: cs =>
    if startsWithCI dashStylePat (c :: cs) then
      match ((c :: cs).drop dashStylePat.length).dropWhile jsWhitespace with
      | ':' :: r2 =>
        let r3 := r2.dropWhile jsWhitespace
        let cap := r3.takeWhile (fun d => !styleStop d)
        if cap.isEmpty then c :: fixDashStyleGo fuel cs
        else dashStylePat ++ ':' :: fixList cap ++
          fixDashStyleGo fuel (r3.dropWhile (fun d => !styleStop d))
      | _ => c :: fixDashStyleGo fuel cs
    else c :: fixDashStyleGo fuel cs

/-- Second replacement pass of fixDashArrays. -/
def fixDashStyle (s : List Char) : List Char := fixDashStyleGo s.length s

/-- List-level fixDashArrays: the attribute pass followed by the style
pass, exactly as in the source. -/
def fixDashArraysL (s : List Char) : List Char := fixDashStyle (fixDashAttr s)

/-- The fixDashArrays function of the source: converts every zero-length
dash entry of a stroke-dasharray attribute or style property to 0.001. -/
def fixDashArrays (s : String) : String := ⟨fixDashArraysL s.data⟩

/- ─────────────────── extractSvgMarkup (source lines 112-118) ─────────── -/

/-- Position predicate for the svg open-tag search: a case-insensitive
svg tag start with some closing angle bracket after it (the lazy open-tag
regex matches at a position exactly when such a bracket exists). -/
def svgOpenAt (l : List Char) : Bool :=
  startsWithCI "<svg".data l && (l.drop 4).any (fun c => c = '>')

/-- Leftmost position at which the svg open-tag regex matches: returns the
text before it and the text from it on. -/
def svgSearch : List Char → Option (List Char × List Char)
  | [] => none
  | c :: cs =>
    if svgOpenAt (c :: cs) then some ([], c :: cs)
    else (svgSearch cs).map (fun pr => (c :: pr.1, pr.2))

/-- List-level extractSvgMarkup: search for the first svg open tag, then
take everything up to and including the first subsequent closing tag. -/
def extractSvgMarkupL (s : List Char) : Option (List Char) :=
  match svgSearch s with
  | none => none
  | some (_, rest) =>
    match splitFirst "</svg>".data rest with
    | none => none
    | some (mid, _) => some (mid ++ "</svg>".data)

/-- The extractSvgMarkup function of the source: pulls a clean svg snippet
out of arbitrary text, or returns none. -/
def extractSvgMarkup (s : String) : Option String :=
  (extractSvgMarkupL s.data).map (fun l => ⟨l⟩)

/- ───────────────────── sanitizeSvg (source lines 123-164) ────────────── -/

/-- Opening delimiter of an XML comment. -/
def commentOpen : List Char := "<!--".data

/-- Closing delimiter of an XML comment. -/
def commentClose : List Char := "-->".data

/-- Fuel-driven worker of the comment-stripping pass: at each position, a
comment start followed (lazily) by the first comment end is removed and
the scan continues after it; otherwise the scan advances one character. -/
def stripCommentsGo : Nat → List Char → List Char
  | 0, s => s
  | _ + 1, [] => []
  | fuel + 1, c :: cs =>
    if startsWithL commentOpen (c :: cs) then
      match splitFirst commentClose ((c :: cs).drop 4) with
      | some (_, post) => stripCommentsGo fuel post
      | none => c :: stripCommentsGo fuel cs
    else c :: stripCommentsGo fuel cs

/-- Comment-stripping pass of sanitizeSvg. -/
def stripComments (s : List Char) : List Char := stripCommentsGo s.length s

/-- Literal text of the doctype pattern (matched case-insensitively). -/
def doctypePat : List Char := "<!doctype".data

/-- Fuel-driven worker of the doctype-stripping pass: a case-insensitive
doctype start followed by anything up to the first closing angle bracket
is removed. -/
def stripDoctypeGo : Nat → List Char → List Char
  | 0, s => s
  | _ + 1, [] => []
  | fuel + 1, c :: cs =>
    if startsWithCI doctypePat (c :: cs) then
      match splitFirst ['>'] ((c :: cs).drop doctypePat.length) with
      | some (_, post) => stripDoctypeGo fuel post
      | none => c :: stripDoctypeGo fuel cs
    else c :: stripDoctypeGo fuel cs

/-- Doctype-stripping pass of sanitizeSvg. -/
def stripDoctype (s : List Char) : List Char := stripDoctypeGo s.length s

/-- The tag names that never belong inside static SVG files (UNWANTED_TAGS
of the source), matched case-insensitively. -/
def unwantedTags : List (List Char) :=
  ["script".data, "link".data, "noscript".data, "meta".data, "base".data,
   "head".data, "html".data, "body".data, "foreignObject".data]

/-- Tries each unwanted tag name (in source order) at the start of s and,
if one matches case-insensitively, returns the remainder of s after the
name.  At most one name can match because no name is a prefix of
another. -/
def matchUnwantedName : List (List Char) → List Char → Option (List Char)
  | [], _ => none
  | t :: ts, s => if startsWithCI t s then some (s.drop t.length) else matchUnwantedName ts s

/-- Matches an unwanted open (or self-closing) tag at the start of s: an
angle bracket, an unwanted name, then anything up to the first closing
angle bracket.  Returns the remainder after that bracket. -/
def openTagAt (s : List Char) : Option (List Char) :=
  match s with
  | '<' :: s1 =>
    match matchUnwantedName unwantedTags s1 with
    | some s2 => (splitFirst ['>'] s2).map (fun pr => pr.2)
    | none => none
  | _ => none

/-- Matches an unwanted closing tag exactly at the start of s (the closing
alternation of the block regex has no attribute part).  Returns the
remainder after it. -/
def closeTagAt (s : List Char) : Option (List Char) :=
  match s with
  | '<' :: '/' :: s1 =>
    match matchUnwantedName unwantedTags s1 with
    | some s2 =>
      match s2 with
      | '>' :: s3 => some s3
      | _ => none
    | none => none
  | _ => none

/-- Earliest unwanted closing tag in s (the lazy any-character part of the
block regex stops at the first closing alternative). -/
def findCloseTag : List Char → Option (List Char)
  | [] => none
  | c :: cs =>
    match closeTagAt (c :: cs) with
    | some rest => some rest
    | none => findCloseTag cs

/-- Fuel-driven worker of the block-form unwanted-tag pass: an unwanted
open tag, lazily anything, then the earliest unwanted closing tag; the
whole span is removed.  An open tag with no subsequent closing tag does
not match and the scan advances one character. -/
def stripBlockGo : Nat → List Char → List Char
  | 0, s => s
  | _ + 1, [] => []
  | fuel + 1, c :: cs =>
    match openTagAt (c :: cs) with
    | some afterOpen =>
      match findCloseTag afterOpen with
      | some afterClose => stripBlockGo fuel afterClose
      | none => c :: stripBlockGo fuel cs
    | none => c :: stripBlockGo fuel cs

/-- Block-form unwanted-tag pass of sanitizeSvg. -/
def stripBlockTags (s : List Char) : List Char := stripBlockGo s.length s

/-- Fuel-driven worker of the single-form unwanted-tag pass: an unwanted
open or self-closing tag alone is removed (the optional slash of the regex
is subsumed by the any-but-bracket part). -/
def stripSingleGo : Nat → List Char → List Char
  | 0, s => s
  | _ + 1, [] => []
  | fuel + 1, c :: cs =>
    match openTagAt (c :: cs) with
    | some after => stripSingleGo fuel after
    | none => c :: stripSingleGo fuel cs

/-- Single-form unwanted-tag pass of sanitizeSvg. -/
def stripSingleTags (s : List Char) : List Char := stripSingleGo s.length s

/-- Name part of the namespace test pattern. -/
def xmlnsNeedle : List Char := "xmlns".data

/-- Quoted namespace literal of the test pattern (matched
case-insensitively). -/
def svgNsLit : List Char := "\"http://www.w3.org/2000/svg\"".data

/-- Test-pattern match at the start of s: a whitespace character, the
xmlns name, optional whitespace, an equals sign, optional whitespace and
the quoted standard namespace. -/
def xmlnsMatchAt (s : List Char) : Bool :=
  match s with
  | [] => false
  | c :: rest =>
    jsWhitespace c && startsWithCI xmlnsNeedle rest &&
      (match (rest.drop xmlnsNeedle.length).dropWhile jsWhitespace with
       | '=' :: u => startsWithCI svgNsLit (u.dropWhile jsWhitespace)
       | _ => false)

/-- Whether the namespace test pattern matches anywhere in s (the test of
the source is a whole-string regex test, not a root-element check). -/
def hasXmlnsDecl : List Char → Bool
  | [] => false
  | c :: cs => xmlnsMatchAt (c :: cs) || hasXmlnsDecl cs

/-- Match of the injection pattern at the start of s: a case-insensitive
svg tag start followed by a whitespace character or a closing angle
bracket. -/
def svgTagAt (s : List Char) : Bool :=
  startsWithCI "<svg".data s &&
    (match s.drop 4 with
     | d :: _ => jsWhitespace d || d = '>'
     | [] => false)

/-- Text inserted by the injection (the replacement literal without the
captured delimiter, which is preserved right after it). -/
def xmlnsIns : List Char := "<svg xmlns=\"http://www.w3.org/2000/svg\"".data

/-- Namespace injection: rewrites the first svg open tag, replacing its
four tag-start characters by the replacement literal and keeping the
delimiter and everything after it unchanged.  Without a matching tag the
string is unchanged. -/
def injectXmlns : List Char → List Char
  | [] => []
  | c :: cs =>
    if svgTagAt (c :: cs) then xmlnsIns ++ (c :: cs).drop 4
    else c :: injectXmlns cs

/-- Namespace stage of sanitizeSvg: inject only when the test pattern
matches nowhere. -/
def xmlnsStage (s : List Char) : List Char :=
  if hasXmlnsDecl s then s else injectXmlns s

/-- List-level sanitizeSvg: comments, doctype, block tags, single tags,
then the namespace stage, in source order. -/
def sanitizeSvgL (s : List Char) : List Char :=
  xmlnsStage (stripSingleTags (stripBlockTags (stripDoctype (stripComments s))))

/-- The sanitizeSvg function of the source. -/
def sanitizeSvg (s : String) : String := ⟨sanitizeSvgL s.data⟩

/-- The sanitization transform as applied by the pipeline (saveSvg and the
passive-capture handler): the dash-array fix followed by sanitizeSvg. -/
def sanitizePipeline (s : String) : String := sanitizeSvg (fixDashArrays s)

/- ───────────────────── inlineAssets (source lines 166-244) ───────────── -/

/-- Outcome of a completed fetch, as far as inlineAssets observes it: the
ok flag, the optional content-type header and the body bytes (kept as a
string; inlineAssets only base64-encodes them or scans them as text). -/
structure HttpResponse where
  ok : Bool
  contentType : Option String
  body : String
deriving DecidableEq

/-- Declared mime type of a response: the content-type header up to the
first semicolon, or the empty string when the header is absent. -/
def mimeOf (r : HttpResponse) : String :=
  match r.contentType with
  | none => ""
  | some ct =>
    match splitFirst [';'] ct.data with
    | some (pre, _) => ⟨pre⟩
    | none => ct

/-- Quote characters of the reference-capturing regexes. -/
def refQuote (c : Char) : Bool := c = '"' || c.toNat = 39

/-- String-level startsWith (the JavaScript String.startsWith). -/
def startsWithS (p s : String) : Bool := startsWithL p.data s.data

/-- Match of the attribute-reference regex at the start of s: an href or
xlink:href name (the alternation is case-sensitive), an equals sign, a
quote, a nonempty capture free of both quote characters and a closing
quote of either kind.  Returns the capture and the remainder after the
match. -/
def urlAttrAt (s : List Char) : Option (List Char × List Char) :=
  let after :=
    if startsWithL "xlink:href".data s then some (s.drop 10)
    else if startsWithL "href".data s then some (s.drop 4)
    else none
  match after with
  | none => none
  | some t =>
    match t with
    | '=' :: q :: t2 =>
      if refQuote q then
        let cap := t2.takeWhile (fun c => !refQuote c)
        match t2.dropWhile (fun c => !refQuote c) with
        | _ :: rest => if cap.isEmpty then none else some (cap, rest)
        | [] => none
      else none
    | _ => none

/-- Fuel-driven global scan collecting all attribute-reference captures in
order. -/
def scanUrlAttrGo : Nat → List Char → List (List Char)
  | 0, _ => []
  | _ + 1, [] => []
  | fuel + 1, c :: cs =>
    match urlAttrAt (c :: cs) with
    | some (cap, rest) => cap :: scanUrlAttrGo fuel rest
    | none => scanUrlAttrGo fuel cs

/-- All attribute-reference captures of s. -/
def scanUrlAttr (s : List Char) : List (List Char) := scanUrlAttrGo s.length s

/-- Terminator class of the style-reference capture: both quotes and the
closing parenthesis. -/
def cssStop (c : Char) : Bool := refQuote c || c = ')'

/-- Match of the style-reference regex at the start of s: a url opener, an
optional quote, a nonempty capture free of quotes and closing parentheses,
an optional quote and the closing parenthesis. -/
def cssUrlAt (s : List Char) : Option (List Char × List Char) :=
  if startsWithL "url(".data s then
    let t := s.drop 4
    let t1 := match t with
      | q :: u => if refQuote q then u else t
      | [] => t
    let cap := t1.takeWhile (fun c => !cssStop c)
    if cap.isEmpty then none
    else
      let r := t1.dropWhile (fun c => !cssStop c)
      let r1 := match r with
        | q :: u => if refQuote q then u else r
        | [] => r
      match r1 with
      | ')' :: rest => some (cap, rest)
      | _ => none
  else none

/-- Fuel-driven global scan collecting all style-reference captures in
order. -/
def scanCssUrlGo : Nat → List Char → List (List Char)
  | 0, _ => []
  | _ + 1, [] => []
  | fuel + 1, c :: cs =>
    match cssUrlAt (c :: cs) with
    | some (cap, rest) => cap :: scanCssUrlGo fuel rest
    | none => scanCssUrlGo fuel cs

/-- All style-reference captures of s. -/
def scanCssUrl (s : List Char) : List (List Char) := scanCssUrlGo s.length s

/-- Fuel-driven worker of the deduplication. -/
def dedupFirstGo : Nat → List (List Char) → List (List Char)
  | 0, _ => []
  | _ + 1, [] => []
  | fuel + 1, x :: xs => x :: dedupFirstGo fuel (xs.filter (fun y => !(y = x : Bool)))

/-- Set-like deduplication keeping first occurrences (insertion order of
the reference set). -/
def dedupFirst (l : List (List Char)) : List (List Char) := dedupFirstGo l.length l

/-- The reference set of a page: attribute references first, then style
references, deduplicated in insertion order. -/
def collectRefs (svg : List Char) : List (List Char) :=
  dedupFirst (scanUrlAttr svg ++ scanCssUrl svg)

/-- A reference is external when it is neither already-embedded data nor a
pure in-document anchor. -/
def isExternalRef (r : List Char) : Bool :=
  !startsWithL "data:".data r && !startsWithL "#".data r

/-- The external references of a page, in processing order. -/
def externalRefs (svg : List Char) : List (List Char) :=
  (collectRefs svg).filter isExternalRef

/-- Fuel-driven worker of global literal replacement (the split/join of
the source): every occurrence of the nonempty pattern is replaced, leftmost
first, scanning after each replacement source text. -/
def replaceAllGo (pat rep : List Char) : Nat → List Char → List Char
  | 0, s => s
  | fuel + 1, s =>
    match splitFirst pat s with
    | none => s
    | some (pre, post) => pre ++ rep ++ replaceAllGo pat rep fuel post

/-- Global literal replacement of pat by rep in s (text.split(pat)
rejoined with rep). -/
def replaceAllL (pat rep s : List Char) : List Char :=
  if pat.isEmpty then s else replaceAllGo pat rep s.length s

/-- String-level global literal replacement. -/
def replaceAllS (pat rep s : String) : String := ⟨replaceAllL pat.data rep.data s.data⟩

/-- Base64 payload of the fixed 1x1 transparent placeholder image. -/
def placeholderB64 : String :=
  "iVBORw0KGgoAAAANSUhEUgAAAAEAAAABCAQAAAC1HAwCAAAAC0lEQVR4nGNgYAAAAAMAASsJTYQAAAAASUVORK5CYII="

/-- Data locator assembled from a mime type and a base64 payload. -/
def dataUri (mime b64 : String) : String := "data:" ++ mime ++ ";base64," ++ b64

/-- The placeholder data locator substituted for unsalvageable
references. -/
def placeholderURI : String := dataUri "image/png" placeholderB64

/-- Match of the src part of the img-salvage regex exactly at the start of
s: the src name (case-insensitive), an equals sign, a quote, a nonempty
capture free of quotes and a closing quote of either kind. -/
def imgSrcAt (s : List Char) : Option (List Char) :=
  if startsWithCI "src=".data s then
    match s.drop 4 with
    | q :: t =>
      if refQuote q then
        let cap := t.takeWhile (fun c => !refQuote c)
        match t.dropWhile (fun c => !refQuote c) with
        | _ :: _ => if cap.isEmpty then none else some cap
        | [] => none
      else none
    | [] => none
  else none

/-- Greedy backtracking of the one-or-more any-but-bracket part of the
img-salvage regex: offsets are tried from the largest down to one. -/
def imgGreedy : Nat → List Char → Option (List Char)
  | 0, _ => none
  | k + 1, r =>
    match imgSrcAt (r.drop (k + 1)) with
    | some cap => some cap
    | none => imgGreedy k r

/-- Src capture of an img tag whose name just matched; r is the text after
the tag name. -/
def imgTagSrc (r : List Char) : Option (List Char) :=
  imgGreedy (r.takeWhile (fun c => !(c = '>'))).length r

/-- List-level first match of the img-salvage regex: the first img tag
start (case-insensitive) from which at least one character of non-bracket
text followed by a quoted src attribute matches. -/
def findImgSrcL : List Char → Option (List Char)
  | [] => none
  | c :: cs =>
    if startsWithCI "<img".data (c :: cs) then
      match imgTagSrc ((c :: cs).drop 4) with
      | some cap => some cap
      | none => findImgSrcL cs
    else findImgSrcL cs

/-- First src capture of an embedded img tag in a response body, as used by
the salvage step of inlineAssets. -/
def findImgSrc (s : String) : Option String := (findImgSrcL s.data).map (fun l => ⟨l⟩)

/-- Platform environment of inlineAssets.  fetchO models the fetch oracle:
none means the fetch promise rejected (a network exception), some r a
completed response r.  resolveURL models the URL constructor (new URL(ref,
base) rendered as an absolute locator) and base64 the buffer encoder; both
are opaque platform functions that the claims quantify over. -/
structure FetchEnv where
  fetchO : String → Option HttpResponse
  resolveURL : String → String → String
  base64 : String → String

/-- Replacement text chosen for an external reference whose primary fetch
completed with an ok response: the embedded data locator for an image
response; for a non-image response, the salvage outcome (the salvaged
image when the salvage fetch completes ok with an image type, the
placeholder in every other case). -/
def okReplacement (env : FetchEnv) (svgUrl ref : String) (res : HttpResponse) : String :=
  let abs := env.resolveURL ref svgUrl
  if !startsWithS "image/" (mimeOf res) then
    match findImgSrc res.body with
    | some src =>
      let imgAbs := env.resolveURL src abs
      match env.fetchO imgAbs with
      | some imgRes =>
        if imgRes.ok && startsWithS "image/" (mimeOf imgRes) then
          dataUri (mimeOf imgRes) (env.base64 imgRes.body)
        else placeholderURI
      | none => placeholderURI
    | none => placeholderURI
  else dataUri (mimeOf res) (env.base64 res.body)

/-- One reference callback of inlineAssets: resolve the reference against
the page origin and fetch it.  A rejected fetch propagates (none: the
whole Promise.all rejects); a non-ok response is logged and skipped with
no substitution; an ok response leads to a global substitution of the
reference by its replacement text. -/
def processRef (env : FetchEnv) (svgUrl text ref : String) : Option String :=
  match env.fetchO (env.resolveURL ref svgUrl) with
  | none => none
  | some res =>
    if !res.ok then some text
    else some (replaceAllS ref (okReplacement env svgUrl ref res) text)

/-- Sequential fold of the reference callbacks.  Each callback mutates the
shared markup text with one atomic read-modify-write (there is no await
between the read and the write in the source), so the concurrent
Promise.all is equivalent to processing the deduplicated references one
after another; the model uses insertion order. -/
def inlineLoop (env : FetchEnv) (svgUrl : String) : String → List String → Option String
  | text, [] => some text
  | text, r :: rs =>
    match processRef env svgUrl text r with
    | some text2 => inlineLoop env svgUrl text2 rs
    | none => none

/-- The inlineAssets function of the source, as a function of the platform
environment: collects the external references of the page and processes
each of them, returning the final markup (or none when some primary fetch
rejected, in which case the awaited Promise.all throws). -/
def inlineAssets (env : FetchEnv) (svgText svgUrl : String) : Option String :=
  inlineLoop env svgUrl svgText ((externalRefs svgText.data).map (fun l => ⟨l⟩))

/- ──────────── svgFolderToPdf, getSvgSize, toPt (source lines 329-387) ── -/

/-- ASCII lowercasing of a file name (the toLowerCase call of the
qualifying filter; the claims only involve ASCII names). -/
def lowerName (s : String) : String := ⟨s.data.map Char.toLower⟩

/-- Suffix test on character lists. -/
def endsWithL (suf l : List Char) : Bool := startsWithL suf.reverse l.reverse

/-- A directory entry qualifies as a page unit when its lowercased name
ends in the svg suffix. -/
def qualifies (f : String) : Bool := endsWithL ".svg".data (lowerName f).data

/-- Decimal value of a digit run. -/
def digitVal (l : List Char) : Nat := l.foldl (fun a c => a * 10 + (c.toNat - 48)) 0

/-- Fuel-driven worker of the natural comparison. -/
def natCmpGo : Nat → List Char → List Char → Ordering
  | 0, _, _ => Ordering.eq
  | _ + 1, [], [] => Ordering.eq
  | _ + 1, [], _ :: _ => Ordering.lt
  | _ + 1, _ :: _, [] => Ordering.gt
  | fuel + 1, a :: as, b :: bs =>
    if a.isDigit && b.isDigit then
      match compare (digitVal ((a :: as).takeWhile Char.isDigit))
                    (digitVal ((b :: bs).takeWhile Char.isDigit)) with
      | Ordering.eq =>
        natCmpGo fuel ((a :: as).dropWhile Char.isDigit) ((b :: bs).dropWhile Char.isDigit)
      | o => o
    else
      match compare a b with
      | Ordering.eq => natCmpGo fuel as bs
      | o => o

/-- Model of the numeric-collation comparator used by the sort call
(localeCompare with the numeric option): maximal decimal digit runs are
compared by numeric value (equal values continue after the runs), all
other characters by code point.  Only its behaviour on digit-stem page
names is relied on by the claims. -/
def natCmp (a b : List Char) : Ordering := natCmpGo (a.length + 1) a b

/-- Non-positive comparator outcome, the ordering criterion of the sort. -/
def natLe (a b : String) : Bool := !(natCmp a.data b.data = Ordering.gt)

/-- Ordered insertion with respect to natLe. -/
def orderedInsertNat (a : String) : List String → List String
  | [] => [a]
  | b :: l => if natLe a b then a :: b :: l else b :: orderedInsertNat a l

/-- Comparator sort of the file list (a stable comparison sort, as
Array.prototype.sort is). -/
def sortSvg (l : List String) : List String := l.foldr orderedInsertNat []

/-- The qualifying page units of a directory listing, in natural numeric
order: the filter and sort of svgFolderToPdf. -/
def qualifyingSorted (entries : List String) : List String :=
  sortSvg (entries.filter qualifies)

/-- The toPt function of the source: converts a declared dimension value
with its unit suffix to points (unitless and pixel values at 96 DPI,
points unchanged, millimetres, centimetres and inches by their standard
ratios, anything else unchanged).  Values are modelled as rationals; all
claimed conversions are exact in both the rational and the
double-precision semantics. -/
def toPt (val : ℚ) (unit : String) : ℚ :=
  if unit = "" || unit = "px" then val / 96 * 72
  else if unit = "pt" then val
  else if unit = "mm" then val / (254 / 10) * 72
  else if unit = "cm" then val / (254 / 100) * 72
  else if unit = "in" then val * 72
  else val

/-- Word character of the unit capture (the regex word class). -/
def wordChar (c : Char) : Bool := c.isAlpha || c.isDigit || c = '_'

/-- Dimension-value character (digits and dots). -/
def sizeChar (c : Char) : Bool := c.isDigit || c = '.'

/-- Greedy backtracking of the value capture of the dimension regex:
capture lengths are tried from the maximal digit-dot run down to one; for
each, the unit capture is the maximal word run after it, and the match
succeeds when a double quote follows. -/
def sizeTryK : Nat → List Char → Option (List Char × List Char)
  | 0, _ => none
  | k + 1, t =>
    let rest := t.drop (k + 1)
    match rest.dropWhile wordChar with
    | '"' :: _ => some (t.take (k + 1), rest.takeWhile wordChar)
    | _ => sizeTryK k t

/-- Match of the dimension regex directly at s (after the word boundary):
the attribute name (case-insensitive), an equals sign and quote, a
nonempty digit-dot capture, a word-character unit capture and the closing
quote.  Returns the value and unit captures. -/
def sizeAttrAt (pat : List Char) (s : List Char) : Option (List Char × List Char) :=
  if startsWithCI pat s then
    match s.drop pat.length with
    | '=' :: '"' :: t =>
      let run := t.takeWhile sizeChar
      if run.isEmpty then none else sizeTryK run.length t
    | _ => none
  else none

/-- Scan for the first dimension match, honouring the word boundary: a
match may start only at the beginning of the text or after a non-word
character. -/
def scanSizeAttr (pat : List Char) : Option Char → List Char → Option (List Char × List Char)
  | _, [] => none
  | prev, c :: cs =>
    let boundary := match prev with
      | none => true
      | some p => !wordChar p
    if boundary then
      match sizeAttrAt pat (c :: cs) with
      | some r => some r
      | none => scanSizeAttr pat (some c) cs
    else scanSizeAttr pat (some c) cs

/-- The parseFloat conversion restricted to digit-dot captures: leading
digits, an optional dot and fraction digits (parsing stops at a second
dot); none models NaN (no leading digit and no fraction). -/
def jsParseFloatDD (l : List Char) : Option ℚ :=
  let ip := l.takeWhile Char.isDigit
  let r := l.dropWhile Char.isDigit
  let fp := match r with
    | '.' :: u => u.takeWhile Char.isDigit
    | _ => []
  if ip.isEmpty && fp.isEmpty then none
  else some ((digitVal ip : ℚ) + (digitVal fp : ℚ) / (10 ^ fp.length))

/-- The getSvgSize function of the source: parses the declared width and
height attributes and converts them to points.  The outer none is the null
of the source (no width or height attribute); an inner none is a NaN
dimension (an unparseable captured value). -/
def getSvgSize (svg : String) : Option (Option ℚ × Option ℚ) :=
  match scanSizeAttr "width".data none svg.data, scanSizeAttr "height".data none svg.data with
  | some (v1, u1), some (v2, u2) =>
    some ((jsParseFloatDD v1).map (fun q => toPt q ⟨u1⟩),
          (jsParseFloatDD v2).map (fun q => toPt q ⟨u2⟩))
  | _, _ => none

/-- The a4 fallback page size of the source, in points. -/
def a4Q : ℚ × ℚ := (59528 / 100, 84189 / 100)

/-- Observable output-side effects of svgFolderToPdf, in order.  A page
dimension of none is a NaN that leaked out of parsing. -/
inductive PdfStep where
  | openStream (outFile : String)
  | addPage (widthPt heightPt : Option ℚ) (svg : String)
  | endDoc
deriving DecidableEq

/-- The svgFolderToPdf function of the source as a trace of its effects:
filter and naturally sort the qualifying entries of the directory listing;
fail before opening any output stream when none qualify; otherwise open
the output stream, add one page per unit sized from its own declared
dimensions (the a4 default when they cannot be parsed) and finish the
document.  The directory listing and per-file contents are inputs, and the
output file name (derived from the directory name by platform path and
encoding functions) is abstracted as a parameter. -/
def svgFolderToPdf (dir outName : String) (entries : List String) (read : String → String) :
    Except String (List PdfStep) :=
  let svgFiles := qualifyingSorted entries
  if svgFiles.isEmpty then Except.error ("no .svg files in \"" ++ dir ++ "\"")
  else
    Except.ok (PdfStep.openStream outName ::
      (svgFiles.map (fun f =>
        let svg := read f
        match getSvgSize svg with
        | some (w, h) => PdfStep.addPage w h svg
        | none => PdfStep.addPage (some a4Q.1) (some a4Q.2) svg)) ++ [PdfStep.endDoc])

/- ───────────────────────────── auxiliary notions ─────────────────────── -/

/-- Occurrence of pat as a contiguous substring of s. -/
def occursIn (pat s : List Char) : Prop := ∃ u v, s = u ++ pat ++ v

/-- Page number encoded in a unit file name: the value of its leading
digit run. -/
def pageNum (f : String) : Nat := digitVal (f.data.takeWhile Char.isDigit)

/-- Interleaves entries with separator runs (used to state the
separator-independence of the dash fix): one separator run between each
pair of adjacent entries. -/
def joinWithSeps : List (List Char) → List (List Char) → List Char
  | [], _ => []
  | [e], _ => e
  | e :: e2 :: es, sep :: seps => e ++ sep ++ joinWithSeps (e2 :: es) seps
  | e :: e2 :: es, [] => e ++ joinWithSeps (e2 :: es) []

/- ─────────────────── concrete claim inputs and oracles ───────────────── -/

/-- Environment of the resolver counterexample: every fetch completes with
a non-ok response. -/
def cexEnvC1 : FetchEnv :=
  { fetchO := fun _ => some ⟨false, none, ""⟩
    resolveURL := fun r _ => r
    base64 := fun _ => "" }

/-- Page markup of the resolver counterexample: one external reference. -/
def cexSvgC1 : String := "<a href=\"http://h/p.png\"/>"

/-- Environment of the resolver witness: every fetch completes ok with an
image type. -/
def witEnvC1 : FetchEnv :=
  { fetchO := fun _ => some ⟨true, some "image/png", ""⟩
    resolveURL := fun r _ => r
    base64 := fun _ => "AA" }

/-- Page markup of the resolver witness. -/
def witSvgC1 : String := "<a href=\"xy\"/>"

/-- Environment of the salvage witness: the reference itself answers with
an html wrapper, whose embedded image then answers with a jpeg. -/
def witEnvC4 : FetchEnv :=
  { fetchO := fun u =>
      if u = "w" then some ⟨true, some "text/html; charset=utf8", "<img  a src=\"s.jpg\">"⟩
      else if u = "s.jpg" then some ⟨true, some "image/jpeg", "J"⟩
      else none
    resolveURL := fun r _ => r
    base64 := fun b => b ++ "64" }

/- ═══════════════════════════ general lemmas ══════════════════════════ -/

theorem startsWithL_iff {p s : List Char} : startsWithL p s = true ↔ ∃ t, s = p ++ t := by
  induction p generalizing s with
  | nil => simp [startsWithL]
  | cons a ps ih =>
    cases s with
    | nil => simp [startsWithL]
    | cons c cs =>
      simp only [startsWithL, Bool.and_eq_true, decide_eq_true_eq, ih]
      constructor
      · rintro ⟨rfl, t, rfl⟩; exact ⟨t, rfl⟩
      · rintro ⟨t, ht⟩
        cases ht
        exact ⟨rfl, t, rfl⟩

theorem startsWithL_self_append (p t : List Char) : startsWithL p (p ++ t) = true :=
  startsWithL_iff.mpr ⟨t, rfl⟩

theorem startsWithL_mono {p a b : List Char} (h : startsWithL p a = true) :
    startsWithL p (a ++ b) = true := by
  rcases startsWithL_iff.mp h with ⟨t, rfl⟩
  exact startsWithL_iff.mpr ⟨t ++ b, by simp⟩

theorem ciEq_refl (c : Char) : ciEq c c = true := by simp [ciEq]

theorem startsWithCI_self_append (p t : List Char) : startsWithCI p (p ++ t) = true := by
  induction p with
  | nil => simp [startsWithCI]
  | cons a ps ih => simp [startsWithCI, ciEq_refl, ih]

theorem splitFirst_eq {pat s pre post : List Char}
    (h : splitFirst pat s = some (pre, post)) : s = pre ++ pat ++ post := by
  induction s generalizing pre post with
  | nil => simp [splitFirst] at h
  | cons c cs ih =>
    rw [splitFirst] at h
    split at h
    · rename_i hsw
      rcases startsWithL_iff.mp hsw with ⟨t, ht⟩
      injection h with h'
      injection h' with h1 h2
      subst h1
      rw [ht, List.drop_left] at h2
      subst h2
      simpa using ht
    · revert h
      match hm : splitFirst pat cs with
      | some (pre', post') =>
        intro h
        injection h with h'
        injection h' with h1 h2
        subst h1; subst h2
        simpa using ih hm
      | none => intro h; exact absurd h (by simp)

theorem occursIn_append_left {pat a b : List Char} (h : occursIn pat a) :
    occursIn pat (a ++ b) := by
  rcases h with ⟨u, v, rfl⟩
  exact ⟨u, v ++ b, by simp⟩

theorem occursIn_append_right {pat a b : List Char} (h : occursIn pat b) :
    occursIn pat (a ++ b) := by
  rcases h with ⟨u, v, rfl⟩
  exact ⟨a ++ u, v, by simp⟩

theorem not_occursIn_nil {pat : List Char} (hp : pat ≠ []) : ¬ occursIn pat [] := by
  rintro ⟨u, v, h⟩
  rcases u with _ | ⟨u0, u'⟩
  · rcases pat with _ | ⟨p0, p'⟩
    · exact hp rfl
    · exact absurd h (by simp)
  · exact absurd h (by simp)

theorem splitFirst_none_not_occ {pat s : List Char} (hp : pat ≠ [])
    (h : splitFirst pat s = none) : ¬ occursIn pat s := by
  induction s with
  | nil => exact fun hc => not_occursIn_nil hp hc
  | cons c cs ih =>
    rw [splitFirst] at h
    split at h
    · exact absurd h (by simp)
    · rename_i hsw
      rintro ⟨u, v, huv⟩
      cases u with
      | nil =>
        simp only [List.nil_append] at huv
        exact absurd (startsWithL_iff.mpr ⟨v, huv⟩) (by simp [hsw])
      | cons u0 u' =>
        have hcs : cs = u' ++ pat ++ v := by
          have := huv
          simp only [List.cons_append] at this
          injection this with _ h2
        have hnone : splitFirst pat cs = none := by
          revert h
          match splitFirst pat cs with
          | some (pre', post') => intro h; exact absurd h (by simp)
          | none => intro _; rfl
        exact ih hnone ⟨u', v, hcs⟩

theorem splitFirst_pre_not_occ {pat s pre post : List Char} (hp : pat ≠ [])
    (h : splitFirst pat s = some (pre, post)) : ¬ occursIn pat pre := by
  induction s generalizing pre post with
  | nil => simp [splitFirst] at h
  | cons c cs ih =>
    rw [splitFirst] at h
    split at h
    · injection h with h'
      injection h' with h1 _
      subst h1
      exact not_occursIn_nil hp
    · rename_i hsw
      revert h
      match hm : splitFirst pat cs with
      | none => intro h; exact absurd h (by simp)
      | some (pre', post') =>
        intro h
        injection h with h'
        injection h' with h1 h2
        subst h1; subst h2
        rintro ⟨u, v, huv⟩
        cases u with
        | nil =>
          simp only [List.nil_append] at huv
          have h1 : startsWithL pat (c :: pre') = true := startsWithL_iff.mpr ⟨v, huv⟩
          have h3 : startsWithL pat (c :: cs) = true := by
            have h2 : c :: cs = (c :: pre') ++ (pat ++ post') := by
              have := splitFirst_eq hm
              simp [this]
            rw [h2]
            exact startsWithL_mono h1
          exact hsw h3
        | cons u0 u' =>
          have : pre' = u' ++ pat ++ v := by
            have := huv
            simp only [List.cons_append] at this
            injection this with _ h2
          exact ih hm ⟨u', v, this⟩

theorem occursIn_sep {pat rep a b : List Char} (hp : pat ≠ []) (hr : rep ≠ [])
    (hd : ∀ c ∈ rep, c ∉ pat) (h : occursIn pat (a ++ rep ++ b)) :
    occursIn pat a ∨ occursIn pat b := by
  rcases h with ⟨u, v, huv⟩
  have h0 : u ++ (pat ++ v) = a ++ (rep ++ b) := by simpa using huv.symm
  rcases List.append_eq_append_iff.mp h0 with ⟨w, hw1, hw2⟩ | ⟨w, hw1, hw2⟩
  · -- hw1 : a = u ++ w, hw2 : pat ++ v = w ++ (rep ++ b)
    rcases List.append_eq_append_iff.mp hw2 with ⟨x, hx1, hx2⟩ | ⟨x, hx1, hx2⟩
    · -- hx1 : w = pat ++ x : pat is inside a
      left
      exact ⟨u, x, by rw [hw1, hx1, List.append_assoc]⟩
    · -- hx1 : pat = w ++ x, hx2 : rep ++ b = x ++ v
      cases x with
      | nil =>
        left
        have hpw : pat = w := by simpa using hx1
        exact ⟨u, [], by rw [hw1, hpw, List.append_nil]⟩
      | cons x0 x' =>
        have hx0pat : x0 ∈ pat := by rw [hx1]; simp
        rcases List.append_eq_append_iff.mp hx2 with ⟨z, hz1, hz2⟩ | ⟨z, hz1, hz2⟩
        · -- hz1 : x0 :: x' = rep ++ z : rep is a prefix of x, x a suffix of pat
          rcases rep with _ | ⟨r0, r'⟩
          · exact absurd rfl hr
          · refine absurd (show r0 ∈ pat by rw [hx1, hz1]; simp) (hd r0 (by simp))
        · -- hz1 : rep = (x0 :: x') ++ z : x0 is in rep
          exact absurd hx0pat (hd x0 (by rw [hz1]; simp))
  · -- hw1 : u = a ++ w, hw2 : rep ++ b = w ++ (pat ++ v)
    rcases List.append_eq_append_iff.mp hw2 with ⟨x, hx1, hx2⟩ | ⟨x, hx1, hx2⟩
    · -- hx1 : w = rep ++ x, hx2 : b = x ++ (pat ++ v)
      right
      exact ⟨x, v, by simp [hx2]⟩
    · -- hx1 : rep = w ++ x, hx2 : pat ++ v = x ++ b
      cases x with
      | nil =>
        right
        have hb : b = pat ++ v := by simpa using hx2.symm
        exact ⟨[], v, by rw [hb]; simp⟩
      | cons x0 x' =>
        have hx0rep : x0 ∈ rep := by rw [hx1]; simp
        rcases List.append_eq_append_iff.mp hx2 with ⟨z, hz1, hz2⟩ | ⟨z, hz1, hz2⟩
        · -- hz1 : x0 :: x' = pat ++ z : pat is a prefix of x, x inside rep
          rcases pat with _ | ⟨p0, p'⟩
          · exact absurd rfl hp
          · refine absurd hx0rep ?_
            intro hmem
            have hp0rep : p0 ∈ rep := by rw [hx1, hz1]; simp
            exact hd p0 hp0rep (by simp)
        · -- hz1 : pat = (x0 :: x') ++ z : x0 is in pat
          exact absurd (show x0 ∈ pat by rw [hz1]; simp) (hd x0 hx0rep)

theorem splitFirst_post_lt {pat s pre post : List Char} (hp : pat ≠ [])
    (h : splitFirst pat s = some (pre, post)) : post.length < s.length := by
  have he := splitFirst_eq h
  rcases pat with _ | ⟨p0, p'⟩
  · exact absurd rfl hp
  · rw [he]; simp [List.length_append]; omega

theorem replaceAllGo_not_occ {pat rep : List Char} (hp : pat ≠ []) (hr : rep ≠ [])
    (hd : ∀ c ∈ rep, c ∉ pat) :
    ∀ fuel s, s.length ≤ fuel → ¬ occursIn pat (replaceAllGo pat rep fuel s) := by
  intro fuel
  induction fuel with
  | zero =>
    intro s hs
    have : s = [] := List.eq_nil_of_length_eq_zero (Nat.le_zero.mp hs)
    subst this
    exact not_occursIn_nil hp
  | succ fuel ih =>
    intro s hs
    show ¬ occursIn pat (replaceAllGo pat rep (fuel + 1) s)
    rw [replaceAllGo]
    rcases hm : splitFirst pat s with _ | ⟨pre, post⟩
    · exact splitFirst_none_not_occ hp hm
    · intro hocc
      rcases occursIn_sep hp hr hd hocc with hc | hc
      · exact splitFirst_pre_not_occ hp hm hc
      · have hlt := splitFirst_post_lt hp hm
        exact ih post (by omega) hc

theorem replaceAllGo_preserve {pat q rep : List Char} (hp : pat ≠ []) (hr : rep ≠ [])
    (hd : ∀ c ∈ rep, c ∉ pat) :
    ∀ fuel s, ¬ occursIn pat s → ¬ occursIn pat (replaceAllGo q rep fuel s) := by
  intro fuel
  induction fuel with
  | zero => intro s hs; exact hs
  | succ fuel ih =>
    intro s hs
    rw [replaceAllGo]
    rcases hm : splitFirst q s with _ | ⟨pre, post⟩
    · exact hs
    · have hse := splitFirst_eq hm
      have hpre : ¬ occursIn pat pre := fun hc =>
        hs (by rw [hse]; exact occursIn_append_left (occursIn_append_left hc))
      have hpost : ¬ occursIn pat post := fun hc =>
        hs (by rw [hse]; exact occursIn_append_right hc)
      intro hocc
      rcases occursIn_sep hp hr hd hocc with hc | hc
      · exact hpre hc
      · exact ih post hpost hc

theorem replaceAllL_not_occ {pat rep s : List Char} (hp : pat ≠ []) (hr : rep ≠ [])
    (hd : ∀ c ∈ rep, c ∉ pat) : ¬ occursIn pat (replaceAllL pat rep s) := by
  rw [replaceAllL]
  have : pat.isEmpty = false := by
    rcases pat with _ | _
    · exact absurd rfl hp
    · rfl
  rw [this]
  simp only [Bool.false_eq_true, if_false]
  exact replaceAllGo_not_occ hp hr hd s.length s le_rfl

theorem replaceAllL_preserve {pat q rep s : List Char} (hp : pat ≠ []) (hr : rep ≠ [])
    (hd : ∀ c ∈ rep, c ∉ pat) (hs : ¬ occursIn pat s) :
    ¬ occursIn pat (replaceAllL q rep s) := by
  rw [replaceAllL]
  split
  · exact hs
  · exact replaceAllGo_preserve hp hr hd s.length s hs

theorem dataUri_startsWith (m b : String) : startsWithS "data:" (dataUri m b) = true := by
  show startsWithL "data:".data ("data:" ++ (m ++ (";base64," ++ b))).data = true
  rw [show ("data:" ++ (m ++ (";base64," ++ b))).data
        = "data:".data ++ (m ++ (";base64," ++ b)).data from rfl]
  exact startsWithL_self_append _ _

theorem okReplacement_startsWith (env : FetchEnv) (svgUrl ref : String) (res : HttpResponse) :
    startsWithS "data:" (okReplacement env svgUrl ref res) = true := by
  have hph : startsWithS "data:" placeholderURI = true := dataUri_startsWith _ _
  simp only [okReplacement]
  split
  · split
    · split
      · split
        · exact dataUri_startsWith _ _
        · exact hph
      · exact hph
    · exact hph
  · exact dataUri_startsWith _ _

theorem startsWithS_data_ne {r : String} (h : startsWithS "data:" r = true) : r.data ≠ [] := by
  rcases startsWithL_iff.mp h with ⟨t, ht⟩
  rw [ht]
  simp [show "data:".data = ['d', 'a', 't', 'a', ':'] from rfl]

theorem processRef_skip (env : FetchEnv) (url t r : String) (res : HttpResponse)
    (hf : env.fetchO (env.resolveURL r url) = some res) (hok : res.ok = false) :
    processRef env url t r = some t := by
  simp [processRef, hf, hok]

theorem processRef_ok (env : FetchEnv) (url t r : String) (res : HttpResponse)
    (hf : env.fetchO (env.resolveURL r url) = some res) (hok : res.ok = true) :
    processRef env url t r = some (replaceAllS r (okReplacement env url r res) t) := by
  simp [processRef, hf, hok]

theorem processRef_isSome (env : FetchEnv) (url t r : String)
    (hf : (env.fetchO (env.resolveURL r url)).isSome = true) :
    (processRef env url t r).isSome = true := by
  rcases hm : env.fetchO (env.resolveURL r url) with _ | res
  · rw [hm] at hf; simp at hf
  · rcases hok : res.ok with _ | _
    · rw [processRef_skip env url t r res hm hok]; rfl
    · rw [processRef_ok env url t r res hm hok]; rfl

theorem inlineLoop_total (env : FetchEnv) (url : String) :
    ∀ (refs : List String) (t : String),
      (∀ r ∈ refs, (env.fetchO (env.resolveURL r url)).isSome = true) →
      ∃ out, inlineLoop env url t refs = some out := by
  intro refs
  induction refs with
  | nil => exact fun t _ => ⟨t, rfl⟩
  | cons r rs ih =>
    intro t h
    have h1 := processRef_isSome env url t r (h r (by simp))
    rcases hm : processRef env url t r with _ | t2
    · rw [hm] at h1; simp at h1
    · rcases ih t2 (fun x hx => h x (by simp [hx])) with ⟨out, hout⟩
      exact ⟨out, by rw [inlineLoop, hm]; exact hout⟩

theorem inlineLoop_abs (env : FetchEnv) (url pat : String) (hpne : pat.data ≠ []) :
    ∀ (refs : List String) (t out : String),
      inlineLoop env url t refs = some out →
      (∀ x ∈ refs, ∃ res, env.fetchO (env.resolveURL x url) = some res ∧ res.ok = true) →
      (∀ x ∈ refs, ∀ res, env.fetchO (env.resolveURL x url) = some res →
        ∀ c ∈ (okReplacement env url x res).data, c ∉ pat.data) →
      (pat ∈ refs ∨ ¬ occursIn pat.data t.data) →
      ¬ occursIn pat.data out.data := by
  intro refs
  induction refs with
  | nil =>
    intro t out hloop _ _ hstart
    have : t = out := by simpa [inlineLoop] using hloop
    subst this
    rcases hstart with h | h
    · simp at h
    · exact h
  | cons x xs ih =>
    intro t out hloop hall hdisj hstart
    rcases hall x (by simp) with ⟨res, hfx, hokx⟩
    have hstep := processRef_ok env url t x res hfx hokx
    rw [inlineLoop, hstep] at hloop
    set rep := okReplacement env url x res with hrep
    have hrepne : rep.data ≠ [] := startsWithS_data_ne (okReplacement_startsWith env url x res)
    have hrepd : ∀ c ∈ rep.data, c ∉ pat.data := hdisj x (by simp) res hfx
    have hall' : ∀ y ∈ xs, ∃ r2, env.fetchO (env.resolveURL y url) = some r2 ∧ r2.ok = true :=
      fun y hy => hall y (by simp [hy])
    have hdisj' : ∀ y ∈ xs, ∀ r2, env.fetchO (env.resolveURL y url) = some r2 →
        ∀ c ∈ (okReplacement env url y r2).data, c ∉ pat.data :=
      fun y hy => hdisj y (by simp [hy])
    rcases hstart with hmem | hno
    · rcases List.mem_cons.mp hmem with heq | hmem'
      · subst heq
        have hkill : ¬ occursIn pat.data (replaceAllS pat rep t).data :=
          replaceAllL_not_occ hpne hrepne hrepd
        exact ih _ out hloop hall' hdisj' (Or.inr hkill)
      · exact ih _ out hloop hall' hdisj' (Or.inl hmem')
    · have hpres : ¬ occursIn pat.data (replaceAllS x rep t).data :=
        replaceAllL_preserve hpne hrepne hrepd hno
      exact ih _ out hloop hall' hdisj' (Or.inr hpres)

theorem urlAttrAt_cap_ne {s cap rest : List Char} (h : urlAttrAt s = some (cap, rest)) :
    cap ≠ [] := by
  simp only [urlAttrAt] at h
  iterate 6 (all_goals try split at h)
  all_goals try exact Option.noConfusion h
  all_goals
    rename_i hguard
    injection h with hpair
    injection hpair with h1 h2
    subst h1
    intro hn
    exact hguard (by rw [hn]; rfl)

theorem cssUrlAt_cap_ne {s cap rest : List Char} (h : cssUrlAt s = some (cap, rest)) :
    cap ≠ [] := by
  simp only [cssUrlAt] at h
  split at h
  · split at h
    · exact Option.noConfusion h
    · rename_i hguard
      split at h
      · injection h with hpair
        injection hpair with h1 h2
        subst h1
        intro hn
        exact hguard (by rw [hn]; rfl)
      · exact Option.noConfusion h
  · exact Option.noConfusion h

theorem scanUrlAttrGo_ne :
    ∀ (fuel : Nat) (s : List Char), ∀ cap ∈ scanUrlAttrGo fuel s, cap ≠ [] := by
  intro fuel
  induction fuel with
  | zero => intro s cap hc; simp [scanUrlAttrGo] at hc
  | succ fuel ih =>
    intro s cap hc
    match s with
    | [] => simp [scanUrlAttrGo] at hc
    | c :: cs =>
      simp only [scanUrlAttrGo] at hc
      rcases hm : urlAttrAt (c :: cs) with _ | ⟨cap2, rest⟩ <;> rw [hm] at hc
      · exact ih cs cap hc
      · rcases List.mem_cons.mp hc with rfl | hmem
        · exact urlAttrAt_cap_ne hm
        · exact ih rest cap hmem

theorem scanCssUrlGo_ne :
    ∀ (fuel : Nat) (s : List Char), ∀ cap ∈ scanCssUrlGo fuel s, cap ≠ [] := by
  intro fuel
  induction fuel with
  | zero => intro s cap hc; simp [scanCssUrlGo] at hc
  | succ fuel ih =>
    intro s cap hc
    match s with
    | [] => simp [scanCssUrlGo] at hc
    | c :: cs =>
      simp only [scanCssUrlGo] at hc
      rcases hm : cssUrlAt (c :: cs) with _ | ⟨cap2, rest⟩ <;> rw [hm] at hc
      · exact ih cs cap hc
      · rcases List.mem_cons.mp hc with rfl | hmem
        · exact cssUrlAt_cap_ne hm
        · exact ih rest cap hmem

theorem dedupFirstGo_sub :
    ∀ (fuel : Nat) (l : List (List Char)), ∀ x ∈ dedupFirstGo fuel l, x ∈ l := by
  intro fuel
  induction fuel with
  | zero => intro l x h; simp [dedupFirstGo] at h
  | succ fuel ih =>
    intro l x h
    match l with
    | [] => simp [dedupFirstGo] at h
    | y :: ys =>
      simp only [dedupFirstGo] at h
      rcases List.mem_cons.mp h with rfl | hmem
      · simp
      · have h2 := ih _ x hmem
        have h3 := List.mem_filter.mp h2
        simp [h3.1]

theorem externalRefs_ne_nil {s : List Char} : ∀ r ∈ externalRefs s, r ≠ [] := by
  intro r hr
  have h1 : r ∈ collectRefs s := (List.mem_filter.mp hr).1
  have h2 : r ∈ scanUrlAttr s ++ scanCssUrl s := dedupFirstGo_sub _ _ r h1
  rcases List.mem_append.mp h2 with h | h
  · exact scanUrlAttrGo_ne _ _ r h
  · exact scanCssUrlGo_ne _ _ r h

/- ═══════════════════════════ claim C1 ════════════════════════════════ -/

/-- C1 counterexample: with an oracle answering the single external
reference of the page with a non-ok (for instance 404) response,
inlineAssets completes but returns the markup unchanged, so a reference
string that is neither an anchor nor self-contained data survives in the
output, contradicting the claim that every external reference is replaced
by an embedded locator or the placeholder regardless of fetch failures. -/
theorem inlineAssets_c1_counterexample :
    inlineAssets cexEnvC1 cexSvgC1 "u" = some cexSvgC1 ∧
    externalRefs cexSvgC1.data = ["http://h/p.png".data] ∧
    occursIn "http://h/p.png".data cexSvgC1.data := by
  refine ⟨by decide, by decide, ⟨"<a href=\"".data, "\"/>".data, by decide⟩⟩

/-- C1 (amended): after the Reference Resolver completes (which it does
whenever no fetch throws a network exception), every external reference
whose response was ok has been globally substituted by a self-contained
data locator (an embedded image or the fixed placeholder), while a
reference whose response was not ok is skipped and left in place without
failing the page; consequently, when every response is ok and no reference
string shares a character with any substituted locator text, the returned
markup contains no occurrence of any external reference. -/
theorem inlineAssets_amended (env : FetchEnv) (svg url : String)
    (h1 : ∀ r ∈ externalRefs svg.data,
      (env.fetchO (env.resolveURL (String.mk r) url)).isSome = true) :
    (∃ out, inlineAssets env svg url = some out ∧
      ((∀ r ∈ externalRefs svg.data, ∀ res : HttpResponse,
          env.fetchO (env.resolveURL (String.mk r) url) = some res → res.ok = true) →
       (∀ r ∈ externalRefs svg.data, ∀ r2 ∈ externalRefs svg.data, ∀ res : HttpResponse,
          env.fetchO (env.resolveURL (String.mk r2) url) = some res →
          ∀ c ∈ (okReplacement env url (String.mk r2) res).data, c ∉ r) →
       ∀ r ∈ externalRefs svg.data, ¬ occursIn r out.data)) ∧
    (∀ (t r : String) (res : HttpResponse),
      env.fetchO (env.resolveURL r url) = some res → res.ok = false →
      processRef env url t r = some t) ∧
    (∀ (t r : String) (res : HttpResponse),
      env.fetchO (env.resolveURL r url) = some res → res.ok = true →
      processRef env url t r = some (replaceAllS r (okReplacement env url r res) t) ∧
      startsWithS "data:" (okReplacement env url r res) = true) := by
  refine ⟨?_, fun t r res hf hok => processRef_skip env url t r res hf hok,
          fun t r res hf hok =>
            ⟨processRef_ok env url t r res hf hok, okReplacement_startsWith env url r res⟩⟩
  have h1' : ∀ x ∈ (externalRefs svg.data).map String.mk,
      (env.fetchO (env.resolveURL x url)).isSome = true := by
    intro x hx
    rcases List.mem_map.mp hx with ⟨r2, hr2, rfl⟩
    exact h1 r2 hr2
  obtain ⟨out, hout⟩ := inlineLoop_total env url ((externalRefs svg.data).map String.mk) svg h1'
  refine ⟨out, hout, ?_⟩
  intro hok hdisj r hr
  have hpne : (String.mk r).data ≠ [] := externalRefs_ne_nil r hr
  apply inlineLoop_abs env url (String.mk r) hpne ((externalRefs svg.data).map String.mk)
    svg out hout
  · intro x hx
    rcases List.mem_map.mp hx with ⟨r2, hr2, rfl⟩
    have hs := h1 r2 hr2
    rcases hm : env.fetchO (env.resolveURL (String.mk r2) url) with _ | res
    · rw [hm] at hs; simp at hs
    · exact ⟨res, rfl, hok r2 hr2 res hm⟩
  · intro x hx res hres
    rcases List.mem_map.mp hx with ⟨r2, hr2, rfl⟩
    exact hdisj r hr r2 hr2 res hres
  · exact Or.inl (List.mem_map_of_mem String.mk hr)

/-- Witness for the amended resolver claim: a concrete all-ok environment
whose replacement text shares no character with the single external
reference, so no occurrence of it remains in the output markup. -/
theorem inlineAssets_amended_witness :
    ∃ out, inlineAssets witEnvC1 witSvgC1 "u" = some out ∧
      ¬ occursIn "xy".data out.data := by
  obtain ⟨⟨out, hout, habs⟩, _, _⟩ := inlineAssets_amended witEnvC1 witSvgC1 "u" (by decide)
  refine ⟨out, hout, ?_⟩
  have hok : ∀ r ∈ externalRefs witSvgC1.data, ∀ res : HttpResponse,
      witEnvC1.fetchO (witEnvC1.resolveURL (String.mk r) "u") = some res → res.ok = true := by
    intro r hr res hres
    rw [show witEnvC1.fetchO (witEnvC1.resolveURL (String.mk r) "u")
          = some ⟨true, some "image/png", ""⟩ from rfl] at hres
    injection hres with h2
    rw [← h2]
  have hdisj : ∀ r ∈ externalRefs witSvgC1.data, ∀ r2 ∈ externalRefs witSvgC1.data,
      ∀ res : HttpResponse,
      witEnvC1.fetchO (witEnvC1.resolveURL (String.mk r2) "u") = some res →
      ∀ c ∈ (okReplacement witEnvC1 "u" (String.mk r2) res).data, c ∉ r := by
    intro r hr r2 hr2 res hres
    rw [show witEnvC1.fetchO (witEnvC1.resolveURL (String.mk r2) "u")
          = some ⟨true, some "image/png", ""⟩ from rfl] at hres
    injection hres with h2
    rw [← h2]
    have hrs : externalRefs witSvgC1.data = ["xy".data] := by decide
    rw [hrs] at hr hr2
    have hr' : r = "xy".data := by simpa using hr
    have hr2' : r2 = "xy".data := by simpa using hr2
    subst hr'; subst hr2'
    decide
  exact habs hok hdisj "xy".data (by decide)

/- ═══════════════════════════ claim C4 ════════════════════════════════ -/

/-- C4: for an external reference whose ok response does not declare an
image content type, the resolver salvages by locating an embedded img tag
in the response body and re-fetching its src resolved against the
absolute location of the reference; a salvage fetch that completes ok with
an image type leads to the salvaged image being embedded, and every other
salvage outcome (non-ok salvage response, non-image salvage type, salvage
network exception, or no img tag in the body) leads to the fixed 1x1
transparent placeholder being substituted. -/
theorem processRef_salvage_spec (env : FetchEnv) (url t r : String) (res : HttpResponse)
    (hf : env.fetchO (env.resolveURL r url) = some res) (hok : res.ok = true)
    (hni : startsWithS "image/" (mimeOf res) = false) :
    (∀ src, findImgSrc res.body = some src →
      (∀ imgRes : HttpResponse,
        env.fetchO (env.resolveURL src (env.resolveURL r url)) = some imgRes →
        ((imgRes.ok = true ∧ startsWithS "image/" (mimeOf imgRes) = true →
            processRef env url t r =
              some (replaceAllS r (dataUri (mimeOf imgRes) (env.base64 imgRes.body)) t)) ∧
         (imgRes.ok = false ∨ startsWithS "image/" (mimeOf imgRes) = false →
            processRef env url t r = some (replaceAllS r placeholderURI t)))) ∧
      (env.fetchO (env.resolveURL src (env.resolveURL r url)) = none →
        processRef env url t r = some (replaceAllS r placeholderURI t))) ∧
    (findImgSrc res.body = none →
      processRef env url t r = some (replaceAllS r placeholderURI t)) := by
  have hbase := processRef_ok env url t r res hf hok
  constructor
  · intro src hsrc
    constructor
    · intro imgRes himg
      constructor
      · rintro ⟨hio, him⟩
        have hrep : okReplacement env url r res
            = dataUri (mimeOf imgRes) (env.base64 imgRes.body) := by
          simp [okReplacement, hni, hsrc, himg, hio, him]
        rw [hbase, hrep]
      · intro hbad
        have hrep : okReplacement env url r res = placeholderURI := by
          rcases hbad with hb | hb <;> simp [okReplacement, hni, hsrc, himg, hb]
        rw [hbase, hrep]
    · intro himg
      have hrep : okReplacement env url r res = placeholderURI := by
        simp [okReplacement, hni, hsrc, himg]
      rw [hbase, hrep]
  · intro hsrc
    have hrep : okReplacement env url r res = placeholderURI := by
      simp [okReplacement, hni, hsrc]
    rw [hbase, hrep]

/-- Witness for the salvage claim: a concrete non-image response whose
body carries an img tag, whose salvage fetch answers with a jpeg; the
reference is substituted by the salvaged embedded image. -/
theorem processRef_salvage_spec_witness :
    processRef witEnvC4 "u" "<a href=\"w\"/>" "w"
      = some "<a href=\"data:image/jpeg;base64,J64\"/>" := by
  have h := (((processRef_salvage_spec witEnvC4 "u" "<a href=\"w\"/>" "w"
      ⟨true, some "text/html; charset=utf8", "<img  a src=\"s.jpg\">"⟩
      (by decide) rfl (by decide)).1 "s.jpg" (by decide)).1
      ⟨true, some "image/jpeg", "J"⟩ (by decide)).1 ⟨rfl, by decide⟩
  rw [h]
  decide

/- ═══════════════════════════ claim C6 ════════════════════════════════ -/

/-- C6: the unit-to-points conversion of the page sizer maps 96 pixels to
exactly 72 points, 1 inch to exactly 72 points and 25.4 millimetres to
exactly 72 points (exact even without appealing to floating tolerance),
treats unitless values as pixels at 96 DPI, and passes point values
through unchanged. -/
theorem toPt_spec :
    toPt 96 "px" = 72 ∧ toPt 1 "in" = 72 ∧ toPt (254 / 10) "mm" = 72 ∧
    (∀ v : ℚ, toPt v "" = v / 96 * 72 ∧ toPt v "px" = v / 96 * 72) ∧
    (∀ v : ℚ, toPt v "pt" = v) := by
  refine ⟨by norm_num +decide [toPt], by norm_num +decide [toPt],
          by norm_num +decide [toPt], ?_, ?_⟩
  · intro v
    constructor <;> simp [toPt]
  · intro v
    simp [toPt]

/- ═══════════════════════════ claim C10 ═══════════════════════════════ -/

/-- C10: an empty dash-array attribute value is rewritten to the single
entry 0.001 (the empty string splits into one empty entry, which converts
to numeric zero); more generally the fix maps each entry produced by the
split through the zero test, and every empty or whitespace-only entry is a
zero entry replaced by the epsilon. -/
theorem fixDashArrays_empty_spec :
    fixDashArrays "stroke-dasharray=\"\"" = "stroke-dasharray=\"0.001\"" ∧
    fixList [] = epsilonEntry ∧
    (∀ l : List Char, fixList l = joinSpace ((jsSplitSep l).map fixEntry)) ∧
    (∀ e : List Char, (∀ c ∈ e, jsWhitespace c = true) → fixEntry e = epsilonEntry) := by
  refine ⟨by decide, by decide, fun l => rfl, ?_⟩
  intro e he
  have hdw : e.dropWhile jsWhitespace = [] := List.dropWhile_eq_nil_iff.mpr he
  have htrim : trimJs e = [] := by
    rw [trimJs, hdw]
    rfl
  have hz : jsNumberIsZero e = true := by
    rw [jsNumberIsZero, htrim]
    rfl
  rw [fixEntry, hz]
  rfl

/-- Witness for the entry-level part of the empty-dash claim: a tab-only
entry is rewritten to the epsilon. -/
theorem fixDashArrays_empty_spec_witness : fixEntry ['\t'] = epsilonEntry :=
  fixDashArrays_empty_spec.2.2.2 ['\t'] (by decide)

/- ═══════════════════════════ claim C2 ════════════════════════════════ -/

theorem hasXmlnsDecl_append_right {v : List Char} (u : List Char)
    (hv : hasXmlnsDecl v = true) : hasXmlnsDecl (u ++ v) = true := by
  induction u with
  | nil => simpa using hv
  | cons c u' ih => simp [hasXmlnsDecl, ih]

theorem xmlnsMatchAt_ins (rest : List Char) :
    xmlnsMatchAt (" xmlns=\"http://www.w3.org/2000/svg\"".data ++ rest) = true := rfl

theorem hasXmlnsDecl_ins (rest : List Char) :
    hasXmlnsDecl (" xmlns=\"http://www.w3.org/2000/svg\"".data ++ rest) = true := by
  show (xmlnsMatchAt (" xmlns=\"http://www.w3.org/2000/svg\"".data ++ rest)
        || hasXmlnsDecl ("xmlns=\"http://www.w3.org/2000/svg\"".data ++ rest)) = true
  rw [xmlnsMatchAt_ins]
  rfl

theorem injectXmlns_cases (l : List Char) :
    injectXmlns l = l ∨ hasXmlnsDecl (injectXmlns l) = true := by
  induction l with
  | nil => exact Or.inl rfl
  | cons c cs ih =>
    by_cases h : svgTagAt (c :: cs) = true
    · right
      rw [injectXmlns, if_pos h]
      exact hasXmlnsDecl_append_right "<svg".data (hasXmlnsDecl_ins _)
    · rw [injectXmlns, if_neg h]
      rcases ih with heq | hdecl
      · exact Or.inl (by rw [heq])
      · right
        simp [hasXmlnsDecl, hdecl]

theorem xmlnsStage_idem (l : List Char) : xmlnsStage (xmlnsStage l) = xmlnsStage l := by
  by_cases h : hasXmlnsDecl l = true
  · simp [xmlnsStage, h]
  · have h1 : xmlnsStage l = injectXmlns l := by simp [xmlnsStage, h]
    rw [h1]
    rcases injectXmlns_cases l with heq | hdecl
    · rw [heq]
      simp [xmlnsStage, h, heq]
    · simp [xmlnsStage, hdecl]

set_option maxHeartbeats 2000000 in
/-- C2 counterexample: the sanitization transform is not idempotent; on
this input the comment-stripping pass splices the surrounding text into a
fresh comment, which only a second application removes. -/
theorem sanitizePipeline_not_idempotent :
    sanitizePipeline (sanitizePipeline "<<!-- -->!-- xyz -->") ≠
      sanitizePipeline "<<!-- -->!-- xyz -->" := by decide

/-- C2 (amended): the sanitization transform is idempotent on every input
whose once-sanitized output is a fixed point of the stripping passes and
of the dash fix (no splicing occurred); the namespace stage is idempotent
unconditionally, so under these hypotheses a second application changes
nothing. -/
theorem sanitizePipeline_amended (x : String)
    (h1 : stripComments (sanitizePipeline x).data = (sanitizePipeline x).data)
    (h2 : stripDoctype (sanitizePipeline x).data = (sanitizePipeline x).data)
    (h3 : stripBlockTags (sanitizePipeline x).data = (sanitizePipeline x).data)
    (h4 : stripSingleTags (sanitizePipeline x).data = (sanitizePipeline x).data)
    (h5 : fixDashArraysL (sanitizePipeline x).data = (sanitizePipeline x).data) :
    sanitizePipeline (sanitizePipeline x) = sanitizePipeline x := by
  have estage : ∀ z : String, sanitizePipeline z
      = ⟨xmlnsStage (stripSingleTags (stripBlockTags (stripDoctype (stripComments
          (fixDashArraysL z.data)))))⟩ := fun z => rfl
  rw [estage (sanitizePipeline x), h5, h1, h2, h3, h4, estage x]
  show String.mk (xmlnsStage (xmlnsStage (stripSingleTags (stripBlockTags (stripDoctype
      (stripComments (fixDashArraysL x.data))))))) = _
  rw [xmlnsStage_idem]

set_option maxHeartbeats 4000000 in
/-- Witness for the amended idempotence claim at a concrete input. -/
theorem sanitizePipeline_amended_witness :
    sanitizePipeline (sanitizePipeline "<svg>") = sanitizePipeline "<svg>" :=
  sanitizePipeline_amended "<svg>" (by decide) (by decide) (by decide) (by decide) (by decide)

/- ═══════════════════════════ claim C8 ════════════════════════════════ -/

theorem injectXmlns_spec (l : List Char) :
    (injectXmlns l = l ∧ ∀ k, svgTagAt (l.drop k) = false) ∨
    (∃ pre rest, l = pre ++ rest ∧ svgTagAt rest = true ∧
      (∀ k < pre.length, svgTagAt (l.drop k) = false) ∧
      injectXmlns l = pre ++ (xmlnsIns ++ rest.drop 4)) := by
  induction l with
  | nil =>
    left
    exact ⟨rfl, fun k => by simp [svgTagAt, startsWithCI]⟩
  | cons c cs ih =>
    by_cases h : svgTagAt (c :: cs) = true
    · right
      refine ⟨[], c :: cs, rfl, h, by simp, ?_⟩
      rw [injectXmlns, if_pos h]
      simp
    · rcases ih with ⟨heq, hall⟩ | ⟨pre, rest, heq, htag, hmin, hres⟩
      · left
        refine ⟨by rw [injectXmlns, if_neg h, heq], ?_⟩
        intro k
        match k with
        | 0 => simpa using (Bool.not_eq_true _).mp h
        | k + 1 => simpa using hall k
      · right
        refine ⟨c :: pre, rest, by simp [heq], htag, ?_, ?_⟩
        · intro k hk
          match k with
          | 0 => simpa using (Bool.not_eq_true _).mp h
          | k + 1 =>
            have : k < pre.length := by simpa using hk
            simpa using hmin k this
        · rw [injectXmlns, if_neg h, hres]
          simp

theorem hasXmlnsDecl_inject_shape (pre y : List Char) :
    hasXmlnsDecl (pre ++ (xmlnsIns ++ y)) = true :=
  hasXmlnsDecl_append_right pre
    (hasXmlnsDecl_append_right "<svg".data (hasXmlnsDecl_ins y))

/-- C8: the Sanitizer ends with the namespace stage; when the markup
already carries the standard namespace declaration the stage changes
nothing, when it lacks both the declaration and any svg open tag the
stage changes nothing, and when it lacks the declaration but has an svg
open tag, the first such tag has the replacement literal substituted for
its four tag-start characters with everything before the tag, the
delimiter and all attributes after it preserved verbatim, after which the
markup contains the standard namespace declaration. -/
theorem sanitizeSvg_xmlns_spec (s : String) :
    (sanitizeSvg s = ⟨xmlnsStage (stripSingleTags (stripBlockTags (stripDoctype
        (stripComments s.data))))⟩) ∧
    (∀ l : List Char,
      (hasXmlnsDecl l = true → xmlnsStage l = l) ∧
      (hasXmlnsDecl l = false →
        ((∀ k, svgTagAt (l.drop k) = false) → xmlnsStage l = l) ∧
        ((∃ k, svgTagAt (l.drop k) = true) →
          ∃ pre rest, l = pre ++ rest ∧ svgTagAt rest = true ∧
            (∀ k < pre.length, svgTagAt (l.drop k) = false) ∧
            xmlnsStage l = pre ++ (xmlnsIns ++ rest.drop 4) ∧
            hasXmlnsDecl (xmlnsStage l) = true))) := by
  refine ⟨rfl, ?_⟩
  intro l
  constructor
  · intro h
    simp [xmlnsStage, h]
  · intro h
    have hstage : xmlnsStage l = injectXmlns l := by simp [xmlnsStage, h]
    constructor
    · intro hall
      rcases injectXmlns_spec l with ⟨heq, _⟩ | ⟨pre, rest, heq, htag, _, _⟩
      · rw [hstage, heq]
      · have : svgTagAt rest = false := by
          have hd := hall pre.length
          rwa [heq, List.drop_left] at hd
        rw [htag] at this
        exact absurd this (by simp)
    · rintro ⟨k, hk⟩
      rcases injectXmlns_spec l with ⟨heq, hall⟩ | ⟨pre, rest, heq, htag, hmin, hres⟩
      · rw [hall k] at hk
        exact absurd hk (by simp)
      · refine ⟨pre, rest, heq, htag, hmin, by rw [hstage, hres], ?_⟩
        rw [hstage, hres]
        exact hasXmlnsDecl_inject_shape pre (rest.drop 4)

/-- Witness for the namespace claim: a concrete markup lacking the
declaration; the tag after the leading paragraph text is rewritten and the
declaration is present afterwards. -/
theorem sanitizeSvg_xmlns_spec_witness :
    ∃ pre rest, "<p><svg>".data = pre ++ rest ∧ svgTagAt rest = true ∧
      (∀ k < pre.length, svgTagAt ("<p><svg>".data.drop k) = false) ∧
      xmlnsStage "<p><svg>".data = pre ++ (xmlnsIns ++ rest.drop 4) ∧
      hasXmlnsDecl (xmlnsStage "<p><svg>".data) = true :=
  (((sanitizeSvg_xmlns_spec "<p><svg>").2 "<p><svg>".data).2 (by decide)).2 ⟨3, by decide⟩

/- ═══════════════════════════ claim C9 ════════════════════════════════ -/

theorem svgSearch_eq {s pre rest : List Char} (h : svgSearch s = some (pre, rest)) :
    s = pre ++ rest ∧ svgOpenAt rest = true ∧
    ∀ k < pre.length, svgOpenAt (s.drop k) = false := by
  induction s generalizing pre rest with
  | nil => simp [svgSearch] at h
  | cons c cs ih =>
    rw [svgSearch] at h
    split at h
    · rename_i htag
      injection h with h'
      injection h' with h1 h2
      subst h1; subst h2
      exact ⟨rfl, htag, by simp⟩
    · rename_i htag
      rcases hm : svgSearch cs with _ | ⟨p', r'⟩
      · rw [hm] at h; exact Option.noConfusion h
      · rw [hm] at h
        injection h with h'
        injection h' with h1 h2
        subst h1; subst h2
        rcases ih hm with ⟨hcs, hr, hmin⟩
        refine ⟨by simp [hcs], hr, ?_⟩
        intro k hk
        match k with
        | 0 => simpa using (Bool.not_eq_true _).mp htag
        | k + 1 =>
          have : k < p'.length := by simpa using hk
          simpa using hmin k this

theorem svgSearch_none {s : List Char} (h : svgSearch s = none) :
    ∀ k, svgOpenAt (s.drop k) = false := by
  induction s with
  | nil => intro k; simp [svgOpenAt, startsWithCI]
  | cons c cs ih =>
    rw [svgSearch] at h
    split at h
    · exact Option.noConfusion h
    · rename_i htag
      have hcs : svgSearch cs = none := by
        rcases hm : svgSearch cs with _ | ⟨p', r'⟩
        · rfl
        · rw [hm] at h; exact Option.noConfusion h
      intro k
      match k with
      | 0 => simpa using (Bool.not_eq_true _).mp htag
      | k + 1 => simpa using ih hcs k

/-- C9: extractSvgMarkup returns none exactly when either no position of
the text matches the svg open-tag pattern (a case-insensitive svg tag
start with a later closing bracket) or no closing svg literal occurs from
the first matching position on; any successful result starts (up to ASCII
case) with the svg tag start, ends with the closing svg literal, and is a
contiguous slice of the input beginning at the first matching position. -/
theorem extractSvgMarkup_spec (s : String) :
    (extractSvgMarkup s = none ↔
      (∀ k, svgOpenAt (s.data.drop k) = false) ∨
      (∃ pre rest, svgSearch s.data = some (pre, rest) ∧ ¬ occursIn "</svg>".data rest)) ∧
    (∀ pre rest, svgSearch s.data = some (pre, rest) →
      s.data = pre ++ rest ∧ svgOpenAt rest = true ∧
      ∀ k < pre.length, svgOpenAt (s.data.drop k) = false) ∧
    (∀ t, extractSvgMarkup s = some t →
      startsWithCI "<svg".data t.data = true ∧
      (∃ mid, t.data = mid ++ "</svg>".data) ∧
      ∃ pre after, s.data = pre ++ t.data ++ after) := by
  have hpatne : "</svg>".data ≠ [] := by decide
  refine ⟨?_, fun pre rest h => svgSearch_eq h, ?_⟩
  · rcases hse : svgSearch s.data with _ | ⟨pre, rest⟩
    · constructor
      · intro _
        exact Or.inl (svgSearch_none hse)
      · intro _
        simp [extractSvgMarkup, extractSvgMarkupL, hse]
    · rcases hsp : splitFirst "</svg>".data rest with _ | ⟨mid, after⟩
      · constructor
        · intro _
          exact Or.inr ⟨pre, rest, rfl, splitFirst_none_not_occ hpatne hsp⟩
        · intro _
          simp [extractSvgMarkup, extractSvgMarkupL, hse, hsp]
      · have hne : extractSvgMarkup s ≠ none := by
          simp [extractSvgMarkup, extractSvgMarkupL, hse, hsp]
        constructor
        · intro h; exact absurd h hne
        · rintro (hall | ⟨pre', rest', hse', hno⟩)
          · rcases svgSearch_eq hse with ⟨hsplit, htag, _⟩
            have := hall pre.length
            rw [hsplit, List.drop_left] at this
            rw [htag] at this
            exact absurd this (by simp)
          · injection hse' with h'
            injection h' with h1 h2
            subst h1; subst h2
            exact absurd ⟨mid, after, splitFirst_eq hsp⟩ hno
  · intro t ht
    rcases hse : svgSearch s.data with _ | ⟨pre, rest⟩
    · simp [extractSvgMarkup, extractSvgMarkupL, hse] at ht
    · rcases hsp : splitFirst "</svg>".data rest with _ | ⟨mid, after⟩
      · simp [extractSvgMarkup, extractSvgMarkupL, hse, hsp] at ht
      · have htd : t.data = mid ++ "</svg>".data := by
          have : extractSvgMarkup s = some ⟨mid ++ "</svg>".data⟩ := by
            simp [extractSvgMarkup, extractSvgMarkupL, hse, hsp]
          rw [this] at ht
          injection ht with h'
          rw [← h']
        rcases svgSearch_eq hse with ⟨hsplit, htag, _⟩
        have hrest : rest = (mid ++ "</svg>".data) ++ after := by
          have := splitFirst_eq hsp
          simpa using this
        refine ⟨?_, ⟨mid, htd⟩, ⟨pre, after, ?_⟩⟩
        · have hsw : startsWithCI "<svg".data rest = true := (Bool.and_eq_true _ _ |>.mp htag).1
          rw [htd]
          match mid, hrest with
          | [], hrest => rw [hrest] at hsw; simp [startsWithCI, ciEq] at hsw
          | [a], hrest => rw [hrest] at hsw; simp [startsWithCI, ciEq] at hsw
          | [a, b], hrest => rw [hrest] at hsw; simp [startsWithCI, ciEq] at hsw
          | [a, b, c], hrest => rw [hrest] at hsw; simp [startsWithCI, ciEq] at hsw
          | m0 :: m1 :: m2 :: m3 :: mrest, hrest =>
            rw [hrest] at hsw
            simp only [startsWithCI, List.cons_append, Bool.and_eq_true] at hsw ⊢
            exact ⟨hsw.1, hsw.2.1, hsw.2.2.1, hsw.2.2.2.1, trivial⟩
        · rw [hsplit, hrest, htd]
          simp


/-- Witness for the extractor claim at a concrete input. -/
theorem extractSvgMarkup_spec_witness :
    startsWithCI "<svg".data "<svg a></svg>".data = true ∧
    (∃ mid, "<svg a></svg>".data = mid ++ "</svg>".data) ∧
    (∃ pre after, "x <svg a></svg> y".data = pre ++ "<svg a></svg>".data ++ after) :=
  (extractSvgMarkup_spec "x <svg a></svg> y").2.2 "<svg a></svg>" (by decide)

/- ═══════════════════════════ claim C3 ════════════════════════════════ -/

theorem takeWhile_append_all {p : Char → Bool} {l r : List Char}
    (h : ∀ c ∈ l, p c = true) : (l ++ r).takeWhile p = l ++ r.takeWhile p := by
  induction l with
  | nil => simp
  | cons c cs ih =>
    have hc : p c = true := h c (by simp)
    simp only [List.cons_append, List.takeWhile_cons, hc, if_true]
    rw [ih (fun x hx => h x (by simp [hx]))]

theorem dropWhile_append_all {p : Char → Bool} {l r : List Char}
    (h : ∀ c ∈ l, p c = true) : (l ++ r).dropWhile p = r.dropWhile p := by
  induction l with
  | nil => simp
  | cons c cs ih =>
    have hc : p c = true := h c (by simp)
    simp only [List.cons_append, List.dropWhile_cons, hc, if_true]
    exact ih (fun x hx => h x (by simp [hx]))

theorem takeWhile_all {p : Char → Bool} {l : List Char}
    (h : ∀ c ∈ l, p c = true) : l.takeWhile p = l := by
  have := @takeWhile_append_all p l [] h
  simpa using this

theorem mem_of_mem_dropWhile {p : Char → Bool} {l : List Char} {a : Char}
    (h : a ∈ l.dropWhile p) : a ∈ l := by
  induction l with
  | nil => simpa using h
  | cons c cs ih =>
    rw [List.dropWhile_cons] at h
    split at h
    · simp [ih h]
    · simpa using h

theorem mem_of_mem_takeWhile {p : Char → Bool} {l : List Char} {a : Char}
    (h : a ∈ l.takeWhile p) : a ∈ l := by
  induction l with
  | nil => simpa using h
  | cons c cs ih =>
    rw [List.takeWhile_cons] at h
    split at h
    · rcases List.mem_cons.mp h with rfl | h'
      · simp
      · simp [ih h']
    · simp at h

theorem joinWithSeps_head (e : List Char) (tail seps : List (List Char)) :
    ∃ z, joinWithSeps (e :: tail) seps = e ++ z := by
  match tail, seps with
  | [], _ => exact ⟨[], by simp [joinWithSeps]⟩
  | e2 :: es, sp :: seps' => exact ⟨sp ++ joinWithSeps (e2 :: es) seps', by simp [joinWithSeps]⟩
  | e2 :: es, [] => exact ⟨joinWithSeps (e2 :: es) [], by simp [joinWithSeps]⟩

theorem jsSplitSepGo_join :
    ∀ (es seps : List (List Char)) (fuel : Nat),
      es ≠ [] →
      (∀ e ∈ es, e ≠ [] ∧ ∀ c ∈ e, dashSep c = false) →
      (∀ sp ∈ seps, sp ≠ [] ∧ ∀ c ∈ sp, dashSep c = true) →
      seps.length + 1 = es.length →
      (joinWithSeps es seps).length ≤ fuel →
      jsSplitSepGo fuel (joinWithSeps es seps) = es := by
  intro es
  induction es with
  | nil => intro seps fuel h; exact absurd rfl h
  | cons e tail ih =>
    intro seps fuel _ hes hseps hlen hfuel
    have hefree : ∀ c ∈ e, (fun c => !dashSep c) c = true := by
      intro c hc
      have := (hes e (by simp)).2 c hc
      simp [this]
    match tail, seps with
    | [], [] =>
      have hj : joinWithSeps [e] ([] : List (List Char)) = e := by simp [joinWithSeps]
      rw [hj] at hfuel ⊢
      have hdw : e.dropWhile (fun c => !dashSep c) = [] :=
        List.dropWhile_eq_nil_iff.mpr hefree
      match fuel with
      | 0 => rfl
      | fuel + 1 =>
        rw [jsSplitSepGo, hdw]
        rw [takeWhile_all hefree]
    | [], sp :: seps' => simp at hlen
    | e2 :: es', [] => simp at hlen
    | e2 :: es', sp :: seps' =>
      have hj : joinWithSeps (e :: e2 :: es') (sp :: seps')
          = e ++ sp ++ joinWithSeps (e2 :: es') seps' := by simp [joinWithSeps]
      set rest := joinWithSeps (e2 :: es') seps' with hrest
      rcases hspm : sp with _ | ⟨c0, sp'⟩
      · exact absurd hspm (hseps sp (by simp)).1
      · subst hspm
        have hc0 : dashSep c0 = true := (hseps (c0 :: sp') (by simp)).2 c0 (by simp)
        have hsp' : ∀ c ∈ sp', dashSep c = true :=
          fun c hc => (hseps (c0 :: sp') (by simp)).2 c (by simp [hc])
        obtain ⟨z, hz⟩ := joinWithSeps_head e2 es' seps'
        rcases he2m : e2 with _ | ⟨d0, e2'⟩
        · exact absurd he2m (hes e2 (by simp)).1
        · subst he2m
          have hd0 : dashSep d0 = false := (hes (d0 :: e2') (by simp)).2 d0 (by simp)
          have hrest_head : rest.dropWhile dashSep = rest := by
            rw [hrest, hz]
            simp only [List.cons_append, List.dropWhile_cons, hd0]
            simp
          match fuel with
          | 0 =>
            exfalso
            rw [hj] at hfuel
            have : 0 < (e ++ (c0 :: sp') ++ rest).length := by simp
            omega
          | fuel + 1 =>
            rw [hj]
            have hassoc : e ++ (c0 :: sp') ++ rest = e ++ ((c0 :: sp') ++ rest) := by
              simp [List.append_assoc]
            rw [hassoc]
            have hdw : (e ++ ((c0 :: sp') ++ rest)).dropWhile (fun c => !dashSep c)
                = c0 :: (sp' ++ rest) := by
              rw [dropWhile_append_all hefree]
              simp only [List.cons_append, List.dropWhile_cons, hc0]
              simp
            have htw : (e ++ ((c0 :: sp') ++ rest)).takeWhile (fun c => !dashSep c) = e := by
              rw [takeWhile_append_all hefree]
              simp only [List.cons_append, List.takeWhile_cons, hc0]
              simp
            rw [jsSplitSepGo, hdw, htw]
            have hdrop2 : (sp' ++ rest).dropWhile dashSep = rest := by
              rw [dropWhile_append_all hsp', hrest_head]
            show e :: jsSplitSepGo fuel ((sp' ++ rest).dropWhile dashSep) = _
            rw [hdrop2]
            have hfits : rest.length ≤ fuel := by
              rw [hj] at hfuel
              simp only [List.length_append] at hfuel
              simp only [List.length_cons] at hfuel
              omega
            rw [ih seps' fuel (by simp) (fun x hx => hes x (by simp [hx]))
              (fun x hx => hseps x (by simp [hx])) (by simpa using hlen) hfits]

theorem fixDashAttrGo_nil (fuel : Nat) : fixDashAttrGo fuel [] = [] := by
  match fuel with
  | 0 => rfl
  | fuel + 1 => rfl

theorem fixDashAttrGo_attr :
    ∀ (fuel : Nat) (l : List Char), (∀ c ∈ l, ¬ c = '"') →
      (dashAttrPat ++ (l ++ ['"'])).length ≤ fuel →
      fixDashAttrGo fuel (dashAttrPat ++ (l ++ ['"'])) = dashAttrPat ++ fixList l ++ ['"'] := by
  intro fuel l hq hlen
  have hqb : ∀ c ∈ l, (fun d => !(d = '"' : Bool)) c = true := by
    intro c hc
    simp [hq c hc]
  have hdrop : (dashAttrPat ++ (l ++ ['"'])).drop dashAttrPat.length = l ++ ['"'] :=
    List.drop_left _ _
  have hdw : (l ++ ['"']).dropWhile (fun d => !(d = '"' : Bool)) = ['"'] := by
    rw [dropWhile_append_all hqb]
    rfl
  have htw : (l ++ ['"']).takeWhile (fun d => !(d = '"' : Bool)) = l := by
    rw [takeWhile_append_all hqb]
    exact List.append_nil l
  rcases hcons : dashAttrPat ++ (l ++ ['"']) with _ | ⟨c, cs⟩
  · exfalso
    have : dashAttrPat.length + (l ++ ['"']).length = 0 := by
      have := congrArg List.length hcons
      simpa using this
    simp [dashAttrPat] at this
  · match fuel with
    | 0 =>
      exfalso
      rw [hcons] at hlen
      simp at hlen
    | fuel + 1 =>
      rw [← hcons]
      have hsw : startsWithCI dashAttrPat (dashAttrPat ++ (l ++ ['"'])) = true :=
        startsWithCI_self_append _ _
      rw [hcons] at hsw hdrop ⊢
      rw [fixDashAttrGo, if_pos hsw, hdrop]
      simp only [hdw, htw, fixDashAttrGo_nil]

theorem fixDashStyleGo_no_colon :
    ∀ (fuel : Nat) (s : List Char), (∀ c ∈ s, ¬ c = ':') → fixDashStyleGo fuel s = s := by
  intro fuel
  induction fuel with
  | zero => intro s _; rfl
  | succ fuel ih =>
    intro s h
    match s with
    | [] => rfl
    | c :: cs =>
      have hcs : ∀ x ∈ cs, ¬ x = ':' := fun x hx => h x (by simp [hx])
      rw [fixDashStyleGo]
      by_cases hsw : startsWithCI dashStylePat (c :: cs) = true
      · rw [if_pos hsw]
        split
        · rename_i r2 heq
          exfalso
          have h1 : (':' : Char) ∈ ((c :: cs).drop dashStylePat.length).dropWhile jsWhitespace := by
            rw [heq]; simp
          have h2 := mem_of_mem_dropWhile h1
          have h3 := List.mem_of_mem_drop h2
          exact h ':' h3 rfl
        · rw [ih cs hcs]
      · rw [if_neg hsw, ih cs hcs]

theorem mem_joinSpace {c : Char} :
    ∀ {ls : List (List Char)}, c ∈ joinSpace ls → c = ' ' ∨ ∃ e ∈ ls, c ∈ e := by
  intro ls
  induction ls with
  | nil => intro h; simp [joinSpace] at h
  | cons e es ih =>
    intro h
    match es with
    | [] => exact Or.inr ⟨e, by simp, by simpa [joinSpace] using h⟩
    | e2 :: es' =>
      rw [show joinSpace (e :: e2 :: es') = e ++ ' ' :: joinSpace (e2 :: es') from rfl] at h
      rcases List.mem_append.mp h with h1 | h1
      · exact Or.inr ⟨e, by simp, h1⟩
      · rcases List.mem_cons.mp h1 with rfl | h2
        · exact Or.inl rfl
        · rcases ih h2 with h3 | ⟨e', he', hc⟩
          · exact Or.inl h3
          · exact Or.inr ⟨e', by simp [he'], hc⟩

theorem mem_splitSepGo :
    ∀ (fuel : Nat) (s e : List Char), e ∈ jsSplitSepGo fuel s → ∀ c ∈ e, c ∈ s := by
  intro fuel
  induction fuel with
  | zero =>
    intro s e he c hc
    have : e = s := by simpa [jsSplitSepGo] using he
    rwa [← this]
  | succ fuel ih =>
    intro s e he c hc
    rw [jsSplitSepGo] at he
    rcases hm : s.dropWhile (fun c => !dashSep c) with _ | ⟨x, r⟩ <;> rw [hm] at he
    · have : e = s.takeWhile (fun c => !dashSep c) := by simpa using he
      exact mem_of_mem_takeWhile (this ▸ hc)
    · rcases List.mem_cons.mp he with rfl | he2
      · exact mem_of_mem_takeWhile hc
      · have h1 : c ∈ r.dropWhile dashSep := ih _ e he2 c hc
        have h2 : c ∈ x :: r := by simp [mem_of_mem_dropWhile h1]
        rw [← hm] at h2
        exact mem_of_mem_dropWhile h2

theorem fixList_chars {l : List Char} {c : Char} (h : c ∈ fixList l) :
    c = ' ' ∨ c ∈ l ∨ c ∈ epsilonEntry := by
  rcases mem_joinSpace h with h1 | ⟨e, he, hc⟩
  · exact Or.inl h1
  · rcases List.mem_map.mp he with ⟨e', he', rfl⟩
    rw [fixEntry] at hc
    split at hc
    · exact Or.inr (Or.inr hc)
    · exact Or.inr (Or.inl (mem_splitSepGo _ _ e' he' c hc))

/-- C3: the dash fix maps each entry of a dash-pattern value through the
zero test, rewriting exactly the entries whose numeric value is zero to
the epsilon and keeping all others verbatim; the entries may be
interleaved with arbitrary nonempty comma/space separator runs and the
separator choice does not affect the result.  At the attribute level, a
well-formed dash-array attribute made of digits, dots, commas and spaces
is rewritten in place to the fixed list. -/
theorem fixDashArrays_spec :
    (∀ (es seps : List (List Char)),
      es ≠ [] →
      (∀ e ∈ es, e ≠ [] ∧ ∀ c ∈ e, dashSep c = false) →
      (∀ sp ∈ seps, sp ≠ [] ∧ ∀ c ∈ sp, dashSep c = true) →
      seps.length + 1 = es.length →
      fixList (joinWithSeps es seps) = joinSpace (es.map fixEntry)) ∧
    (∀ l : List Char,
      (∀ c ∈ l, c.isDigit = true ∨ c = '.' ∨ c = ',' ∨ c = ' ') →
      fixDashArrays ⟨dashAttrPat ++ (l ++ ['"'])⟩ = ⟨dashAttrPat ++ fixList l ++ ['"']⟩) := by
  constructor
  · intro es seps hne hes hseps hlen
    rw [fixList, jsSplitSep, jsSplitSepGo_join es seps _ hne hes hseps hlen le_rfl]
  · intro l hl
    have hq : ∀ c ∈ l, ¬ c = '"' := by
      intro c hc heq
      rcases hl c hc with h | h | h | h <;> rw [heq] at h <;> simp at h
    have hattr : fixDashAttr (dashAttrPat ++ (l ++ ['"']))
        = dashAttrPat ++ fixList l ++ ['"'] := by
      rw [fixDashAttr]
      exact fixDashAttrGo_attr _ l hq le_rfl
    have hnc : ∀ c ∈ dashAttrPat ++ fixList l ++ ['"'], ¬ c = ':' := by
      intro c hc heq
      subst heq
      rcases List.mem_append.mp hc with h1 | h1
      · rcases List.mem_append.mp h1 with h2 | h2
        · exact absurd h2 (by decide)
        · rcases fixList_chars h2 with h3 | h3 | h3
          · simp at h3
          · rcases hl ':' h3 with h | h | h | h <;> simp at h
          · exact absurd h3 (by decide)
      · simp at h1
    have hstyle : fixDashStyle (dashAttrPat ++ fixList l ++ ['"'])
        = dashAttrPat ++ fixList l ++ ['"'] := by
      rw [fixDashStyle]
      exact fixDashStyleGo_no_colon _ _ hnc
    show String.mk (fixDashStyle (fixDashAttr (dashAttrPat ++ (l ++ ['"'])))) = _
    rw [hattr, hstyle]

/-- Witness for the dash-list claim: two entries joined by a comma-space
run, and a concrete dash-array attribute. -/
theorem fixDashArrays_spec_witness :
    fixList (joinWithSeps [['1'], ['0']] [[',', ' ']]) = joinSpace ([['1'], ['0']].map fixEntry) ∧
    fixDashArrays ⟨dashAttrPat ++ ("0,5".data ++ ['"'])⟩
      = ⟨dashAttrPat ++ fixList "0,5".data ++ ['"']⟩ :=
  ⟨fixDashArrays_spec.1 [['1'], ['0']] [[',', ' ']] (by decide) (by decide) (by decide) (by decide),
   fixDashArrays_spec.2 "0,5".data (by decide)⟩

/- ═══════════════════════ claims C5 and C7 ════════════════════════════ -/

theorem orderedInsertNat_mem {a x : String} :
    ∀ {l : List String}, x ∈ orderedInsertNat a l → x = a ∨ x ∈ l := by
  intro l
  induction l with
  | nil =>
    intro h
    rw [orderedInsertNat] at h
    exact Or.inl (by simpa using h)
  | cons b l ih =>
    intro h
    rw [orderedInsertNat] at h
    split at h
    · rcases List.mem_cons.mp h with rfl | h2
      · exact Or.inl rfl
      · exact Or.inr h2
    · rcases List.mem_cons.mp h with rfl | h2
      · exact Or.inr (by simp)
      · rcases ih h2 with h3 | h3
        · exact Or.inl h3
        · exact Or.inr (by simp [h3])

theorem orderedInsertNat_length (a : String) :
    ∀ l : List String, (orderedInsertNat a l).length = l.length + 1 := by
  intro l
  induction l with
  | nil => rfl
  | cons b l ih =>
    rw [orderedInsertNat]
    split
    · simp
    · simp [ih]

theorem sortSvg_mem {x : String} : ∀ {l : List String}, x ∈ sortSvg l → x ∈ l := by
  intro l
  induction l with
  | nil => intro h; simpa [sortSvg] using h
  | cons b l ih =>
    intro h
    rcases orderedInsertNat_mem h with rfl | h2
    · simp
    · simp [ih h2]

theorem sortSvg_length : ∀ l : List String, (sortSvg l).length = l.length := by
  intro l
  induction l with
  | nil => rfl
  | cons b l ih =>
    show (orderedInsertNat b (sortSvg l)).length = l.length + 1
    rw [orderedInsertNat_length, ih]

theorem orderedInsertNat_sorted (P : String → Prop)
    (htot : ∀ x y, P x → P y → natLe x y = true ∨ natLe y x = true)
    (htrans : ∀ x y z, P x → P y → P z →
      natLe x y = true → natLe y z = true → natLe x z = true) :
    ∀ (l : List String) (a : String), P a → (∀ x ∈ l, P x) →
      l.Pairwise (fun u v => natLe u v = true) →
      (orderedInsertNat a l).Pairwise (fun u v => natLe u v = true) := by
  intro l
  induction l with
  | nil => intro a _ _ _; simp [orderedInsertNat]
  | cons b l ih =>
    intro a ha hP hsort
    rw [orderedInsertNat]
    rcases List.pairwise_cons.mp hsort with ⟨hb, hsl⟩
    split
    · rename_i hab
      refine List.pairwise_cons.mpr ⟨?_, hsort⟩
      intro y hy
      rcases List.mem_cons.mp hy with rfl | hy2
      · exact hab
      · exact htrans a b y ha (hP b (by simp)) (hP y (by simp [hy2])) hab (hb y hy2)
    · rename_i hab
      refine List.pairwise_cons.mpr ⟨?_, ?_⟩
      · intro y hy
        rcases orderedInsertNat_mem hy with rfl | hy2
        · rcases htot y b ha (hP b (by simp)) with h | h
          · exact absurd h hab
          · exact h
        · exact hb y hy2
      · exact ih a ha (fun x hx => hP x (by simp [hx])) hsl

theorem sortSvg_sorted (P : String → Prop)
    (htot : ∀ x y, P x → P y → natLe x y = true ∨ natLe y x = true)
    (htrans : ∀ x y z, P x → P y → P z →
      natLe x y = true → natLe y z = true → natLe x z = true) :
    ∀ l : List String, (∀ x ∈ l, P x) →
      (sortSvg l).Pairwise (fun u v => natLe u v = true) := by
  intro l
  induction l with
  | nil => intro _; simp [sortSvg]
  | cons b l ih =>
    intro hP
    exact orderedInsertNat_sorted P htot htrans (sortSvg l) b (hP b (by simp))
      (fun x hx => hP x (by simp [sortSvg_mem hx]))
      (ih (fun x hx => hP x (by simp [hx])))

theorem natCmpGo_refl : ∀ (fuel : Nat) (s : List Char), natCmpGo fuel s s = Ordering.eq := by
  intro fuel
  induction fuel with
  | zero => intro s; rfl
  | succ fuel ih =>
    intro s
    match s with
    | [] => rfl
    | a :: as =>
      rw [natCmpGo]
      by_cases hd : (a.isDigit && a.isDigit) = true
      · rw [if_pos hd]
        have : compare (digitVal ((a :: as).takeWhile Char.isDigit))
            (digitVal ((a :: as).takeWhile Char.isDigit)) = Ordering.eq := by
          simp [Nat.compare_eq_eq]
        rw [this]
        exact ih _
      · rw [if_neg hd]
        have : compare a a = Ordering.eq := compare_eq_iff_eq.mpr rfl
        rw [this]
        exact ih as

theorem natCmp_digit_names {d1 d2 : List Char}
    (h1 : d1 ≠ []) (h1d : ∀ c ∈ d1, c.isDigit = true)
    (h2 : d2 ≠ []) (h2d : ∀ c ∈ d2, c.isDigit = true) :
    natCmp (d1 ++ ".svg".data) (d2 ++ ".svg".data) = compare (digitVal d1) (digitVal d2) := by
  rcases d1 with _ | ⟨a, as⟩
  · exact absurd rfl h1
  rcases d2 with _ | ⟨b, bs⟩
  · exact absurd rfl h2
  have ht1 : (a :: (as ++ ".svg".data)).takeWhile Char.isDigit = a :: as := by
    rw [show a :: (as ++ ".svg".data) = (a :: as) ++ ".svg".data from rfl,
      takeWhile_append_all h1d,
      show (".svg".data).takeWhile Char.isDigit = [] from rfl, List.append_nil]
  have ht2 : (b :: (bs ++ ".svg".data)).takeWhile Char.isDigit = b :: bs := by
    rw [show b :: (bs ++ ".svg".data) = (b :: bs) ++ ".svg".data from rfl,
      takeWhile_append_all h2d,
      show (".svg".data).takeWhile Char.isDigit = [] from rfl, List.append_nil]
  have hd1 : (a :: (as ++ ".svg".data)).dropWhile Char.isDigit = ".svg".data := by
    rw [show a :: (as ++ ".svg".data) = (a :: as) ++ ".svg".data from rfl,
      dropWhile_append_all h1d]
    decide
  have hd2 : (b :: (bs ++ ".svg".data)).dropWhile Char.isDigit = ".svg".data := by
    rw [show b :: (bs ++ ".svg".data) = (b :: bs) ++ ".svg".data from rfl,
      dropWhile_append_all h2d]
    decide
  have hdig : (a.isDigit && b.isDigit) = true := by
    rw [h1d a (by simp), h2d b (by simp)]
    rfl
  rw [natCmp]
  rw [show (a :: as) ++ ".svg".data = a :: (as ++ ".svg".data) from rfl,
      show (b :: bs) ++ ".svg".data = b :: (bs ++ ".svg".data) from rfl]
  rw [natCmpGo, if_pos hdig, ht1, ht2]
  rcases hcmp : compare (digitVal (a :: as)) (digitVal (b :: bs)) with _ | _ | _ <;>
    simp only [hcmp] <;> simp only [hd1, hd2, natCmpGo_refl]

theorem natLe_digit_names {x y : String}
    (hx1 : x.data.takeWhile Char.isDigit ≠ [])
    (hx2 : x.data = x.data.takeWhile Char.isDigit ++ ".svg".data)
    (hy1 : y.data.takeWhile Char.isDigit ≠ [])
    (hy2 : y.data = y.data.takeWhile Char.isDigit ++ ".svg".data) :
    natLe x y = true ↔ pageNum x ≤ pageNum y := by
  have hxd : ∀ c ∈ x.data.takeWhile Char.isDigit, c.isDigit = true :=
    fun c hc => List.mem_takeWhile_imp hc
  have hyd : ∀ c ∈ y.data.takeWhile Char.isDigit, c.isDigit = true :=
    fun c hc => List.mem_takeWhile_imp hc
  have hcmp : natCmp x.data y.data
      = compare (digitVal (x.data.takeWhile Char.isDigit))
          (digitVal (y.data.takeWhile Char.isDigit)) := by
    conv_lhs => rw [hx2, hy2]
    exact natCmp_digit_names hx1 hxd hy1 hyd
  rw [natLe, hcmp]
  rw [pageNum, pageNum]
  rcases Nat.lt_trichotomy (digitVal (x.data.takeWhile Char.isDigit))
      (digitVal (y.data.takeWhile Char.isDigit)) with h | h | h
  · rw [Nat.compare_eq_lt.mpr h]
    simp
    omega
  · rw [h, Nat.compare_eq_eq.mpr rfl]
    simp
  · rw [Nat.compare_eq_gt.mpr h]
    simp
    omega

/-- C7: the Document Assembler processes qualifying page-unit filenames in
natural numeric order: on the claim's own instance the processing order of
0002, 0010, 0001 is 0001, 0002, 0010, and in general, for every directory
listing whose entries are a digit run followed by ".svg", the processing
order is nondecreasing in the page number encoded by the digit run. -/
theorem qualifyingSorted_natural_order :
    qualifyingSorted ["0002.svg", "0010.svg", "0001.svg"]
        = ["0001.svg", "0002.svg", "0010.svg"]
    ∧ ∀ entries : List String,
        (∀ f ∈ entries, f.data.takeWhile Char.isDigit ≠ [] ∧
          f.data = f.data.takeWhile Char.isDigit ++ ".svg".data) →
        (qualifyingSorted entries).Pairwise (fun a b => pageNum a ≤ pageNum b) := by
  refine ⟨by decide, ?_⟩
  intro entries hP
  have key : ∀ x y : String,
      (x.data.takeWhile Char.isDigit ≠ [] ∧
        x.data = x.data.takeWhile Char.isDigit ++ ".svg".data) →
      (y.data.takeWhile Char.isDigit ≠ [] ∧
        y.data = y.data.takeWhile Char.isDigit ++ ".svg".data) →
      (natLe x y = true ↔ pageNum x ≤ pageNum y) :=
    fun x y hx hy => natLe_digit_names hx.1 hx.2 hy.1 hy.2
  have hsorted := sortSvg_sorted
    (fun f => f.data.takeWhile Char.isDigit ≠ [] ∧
        f.data = f.data.takeWhile Char.isDigit ++ ".svg".data)
    (fun x y hx hy => by
      rcases Nat.le_total (pageNum x) (pageNum y) with h | h
      · exact Or.inl ((key x y hx hy).mpr h)
      · exact Or.inr ((key y x hy hx).mpr h))
    (fun x y z hx hy hz hxy hyz =>
      (key x z hx hz).mpr (Nat.le_trans ((key x y hx hy).mp hxy)
        ((key y z hy hz).mp hyz)))
    (entries.filter qualifies)
    (fun x hx => hP x (List.mem_of_mem_filter hx))
  rw [qualifyingSorted]
  exact hsorted.imp_of_mem (fun ha hb h =>
    (key _ _ (hP _ (List.mem_of_mem_filter (sortSvg_mem ha)))
      (hP _ (List.mem_of_mem_filter (sortSvg_mem hb)))).mp h)

theorem qualifyingSorted_natural_order_witness :
    (qualifyingSorted ["10.svg", "2.svg"]).Pairwise
      (fun a b => pageNum a ≤ pageNum b) :=
  qualifyingSorted_natural_order.2 ["10.svg", "2.svg"] (by decide)

/-- C5: when no directory entry qualifies (no ".svg" suffix,
case-insensitively), svgFolderToPdf fails with the descriptive error
naming the directory and its effect trace is empty, so in particular no
output stream is opened; and conversely every successful run has at least
one qualifying entry, opens the output stream as its very first effect
and adds exactly one page per qualifying file before closing the
document. -/
theorem svgFolderToPdf_empty_spec (dir outName : String) (entries : List String)
    (read : String → String) :
    (entries.filter qualifies = [] →
      svgFolderToPdf dir outName entries read
        = Except.error ("no .svg files in \"" ++ dir ++ "\"")) ∧
    (∀ steps, svgFolderToPdf dir outName entries read = Except.ok steps →
      entries.filter qualifies ≠ [] ∧
      steps.head? = some (PdfStep.openStream outName) ∧
      steps.length = (entries.filter qualifies).length + 2) := by
  constructor
  · intro hnil
    have hq : qualifyingSorted entries = [] := by
      rw [qualifyingSorted, hnil]
      rfl
    simp only [svgFolderToPdf, hq, List.isEmpty_nil, if_true]
  · intro steps hok
    simp only [svgFolderToPdf] at hok
    by_cases hE : (qualifyingSorted entries).isEmpty = true
    · rw [if_pos hE] at hok
      exact Except.noConfusion hok
    · rw [if_neg hE] at hok
      injection hok with hsteps
      subst hsteps
      refine ⟨?_, rfl, ?_⟩
      · intro hnil
        apply hE
        rw [qualifyingSorted, hnil]
        rfl
      · rw [List.length_append, List.length_cons, List.length_map,
          qualifyingSorted, sortSvg_length]
        simp

theorem svgFolderToPdf_empty_spec_witness :
    svgFolderToPdf "drawings" "drawings.pdf" ["a.txt", "readme.md"] (fun _ => "")
      = Except.error "no .svg files in \"drawings\"" :=
  (svgFolderToPdf_empty_spec "drawings" "drawings.pdf" ["a.txt", "readme.md"]
    (fun _ => "")).1 (by decide)
